import Mathlib

/-!
Verification of the rotation / hand-off / background-compression pipeline of
`abusehelper/bots/archivebot/archivebot.py` (Python 2), as a shallow embedding.

Conventions of the embedding:
* Python byte strings (paths, filenames) are `List Char` restricted in practice
  to single-byte characters; file contents are byte lists `List Nat`.
* The filesystem is a flat association list from full paths to contents.
* `os`-module helpers (`os.path.split`, `os.path.join`, `os.path.splitext`)
  are translated from CPython's `posixpath` / `genericpath` sources.
* Nondeterminism (`random.getrandbits(32)`) is made explicit by passing the
  stream of drawn tags as a list argument; fallible I/O is made explicit by an
  injected fault parameter and `Option` results.
-/

set_option autoImplicit false

/-- Digit character for a value below 16, matching Python's lowercase
`"%x"` / `"%d"` formatting: `0`-`9` then `a`-`f`. -/
def hexDigitChar (d : Nat) : Char :=
  if d < 10 then Char.ofNat (48 + d) else Char.ofNat (87 + d)

/-- Decimal representation of a natural number, as produced by Python's
`"{0:d}".format` (no sign, no padding). -/
def decRepr (n : Nat) : List Char :=
  if h : n < 10 then [hexDigitChar n]
  else decRepr (n / 10) ++ [hexDigitChar (n % 10)]
  decreasing_by
    exact Nat.div_lt_self (Nat.lt_of_lt_of_le (by norm_num) (Nat.le_of_not_lt h)) (by norm_num)

/-- Lowercase hexadecimal representation of a natural number, as produced by
Python's `"{0:x}".format`. -/
def hexRepr (n : Nat) : List Char :=
  if h : n < 16 then [hexDigitChar n]
  else hexRepr (n / 16) ++ [hexDigitChar (n % 16)]
  decreasing_by
    exact Nat.div_lt_self (Nat.lt_of_lt_of_le (by norm_num) (Nat.le_of_not_lt h)) (by norm_num)

/-- Zero-padding to width 8, the `08` in Python's `"{0:08x}"` and `"{0:08d}"`
format specifications (a minimum width: longer representations are kept). -/
def padZero8 (s : List Char) : List Char :=
  List.replicate (8 - s.length) '0' ++ s

/-- Decimal value of a digit string (leading zeros ignored); used only to
prove injectivity of the rendered numeric suffixes. -/
def decVal : List Char → Nat
  | [] => 0
  | c :: rest => (c.toNat - 48) * 10 ^ rest.length + decVal rest

/-- Case-insensitive hexadecimal digit test, the character class `[0-9a-f]`
of the rotated-file regex under `re.IGNORECASE` (byte values `0`-`9`,
`a`-`f`, `A`-`F`). -/
def isHexDigitCI (c : Char) : Bool :=
  decide ((48 ≤ c.toNat ∧ c.toNat ≤ 57) ∨ (97 ≤ c.toNat ∧ c.toNat ≤ 102) ∨
    (65 ≤ c.toNat ∧ c.toNat ≤ 70))

/-- ASCII lowercasing, the case folding Python 2's `re.IGNORECASE` applies to
byte-string patterns. -/
def lowerAscii (c : Char) : Char :=
  if 65 ≤ c.toNat ∧ c.toNat ≤ 90 then Char.ofNat (c.toNat + 32) else c

/-- The filesystem model: a flat association list mapping each full file path
to its byte content.  Directories are implicit (paths are stored fully joined,
the way `archivebot.py` itself always manipulates them). -/
abbrev FS : Type := List (List Char × List Nat)

/-- Content of the file at `p`, `none` when no such file exists (an `open`
for reading raises `IOError` exactly when this is `none`). -/
def lookupFS : FS → List Char → Option (List Nat)
  | [], _ => none
  | e :: rest, p => if e.1 = p then some e.2 else lookupFS rest p

/-- `os.path.isfile` over the model. -/
def isfile (fs : FS) (p : List Char) : Bool :=
  (lookupFS fs p).isSome

/-- `os.remove`: drop the entry at `p`. -/
def removeFS : FS → List Char → FS
  | [], _ => []
  | e :: rest, p => if e.1 = p then removeFS rest p else e :: removeFS rest p

/-- Overwrite the content of the existing file at `p` (no-op when absent). -/
def updateFS : FS → List Char → List Nat → FS
  | [], _, _ => []
  | e :: rest, p, c => if e.1 = p then (p, c) :: updateFS rest p c else e :: updateFS rest p c

/-- The list of existing file paths. -/
def keysFS (fs : FS) : List (List Char) :=
  fs.map Prod.fst

/-- `os.path.split` (posixpath): the part after the last slash is the tail;
the head keeps no trailing slashes unless it consists only of slashes. -/
def osPathSplit (p : List Char) : List Char × List Char :=
  let r := p.reverse
  let tl := (r.takeWhile (fun c => decide (¬ c = '/'))).reverse
  let hd := (r.dropWhile (fun c => decide (¬ c = '/'))).reverse
  if hd ≠ [] ∧ hd.any (fun c => decide (¬ c = '/')) then
    (((hd.reverse).dropWhile (fun c => decide (c = '/'))).reverse, tl)
  else
    (hd, tl)

/-- `os.path.join` (posixpath) for two components, as used by the source:
an absolute second component replaces the first, otherwise a single slash
separates them unless the first is empty or already ends in a slash. -/
def osPathJoin (a b : List Char) : List Char :=
  if b.head? = some '/' then b
  else if a = [] ∨ a.getLast? = some '/' then a ++ b
  else a ++ '/' :: b

/-- `os.path.splitext` (genericpath) for a filename containing no slash:
split at the last dot unless every preceding character is also a dot. -/
def splitext (f : List Char) : List Char × List Char :=
  match f.reverse.findIdx? (fun c => decide (c = '.')) with
  | none => (f, [])
  | some r =>
    let dotIdx := f.length - 1 - r
    if (f.take dotIdx).any (fun c => decide (¬ c = '.')) then (f.take dotIdx, f.drop dotIdx)
    else (f, [])

/-- The literal marker of rotated files, `".compress-"`. -/
def compressMarker : List Char :=
  ['.', 'c', 'o', 'm', 'p', 'r', 'e', 's', 's', '-']

/-- Python 2 `re.match(r"^(.*)\.compress-[0-9a-f]{8}$", filename, re.I)`,
returning group 1.  Faithful to `re` semantics: `.` does not match a newline
(so the stem may not contain one), the literal and the character class are
matched case-insensitively over ASCII, and `$` matches either at the end of
the string or just before a single trailing newline.  Because the suffix has
fixed length 18, the greedy group is forced to `core.take (core.length - 18)`. -/
def matchCompressFilename (f : List Char) : Option (List Char) :=
  let core := if f.getLast? = some '\n' then f.dropLast else f
  if core.length < 18 then none
  else
    let stem := core.take (core.length - 18)
    let sfx := core.drop (core.length - 18)
    if (sfx.take 10).map lowerAscii = compressMarker ∧
        (sfx.drop 10).all isHexDigitCI ∧
        stem.all (fun c => decide (¬ c = '\n')) then
      some stem
    else none

/-- `_split_compress_path` (archivebot.py lines 29-52): split off the
directory, then strip the `.compress-XXXXXXXX` part from the filename;
`none` models the `ValueError` raised for non-rotated filenames. -/
def splitCompressPath (p : List Char) : Option (List Char × List Char) :=
  let s := osPathSplit p
  (matchCompressFilename s.2).map (fun stem => (s.1, stem))

/-- `_is_compress_path` (archivebot.py lines 55-69): `True` exactly when
`_split_compress_path` does not raise. -/
def isCompressPath (p : List Char) : Bool :=
  (splitCompressPath p).isSome

/-- `_create_compress_path` for one drawn tag (archivebot.py lines 18-27,
loop body): append `".compress-"` and the 32-bit tag rendered as
`"{0:08x}"` to the filename, rejoined with the directory. -/
def createCompressPathTag (p : List Char) (tag : Nat) : List Char :=
  let s := osPathSplit p
  osPathJoin s.1 (s.2 ++ compressMarker ++ padZero8 (hexRepr tag))

/-- `_create_compress_path` (archivebot.py lines 18-27): keep drawing tags
until the candidate path names no existing file.  The stream of values of
`random.getrandbits(32)` is passed explicitly; `none` models exhausting it. -/
def createCompressPath (fs : FS) (p : List Char) : List Nat → Option (List Char)
  | [] => none
  | t :: ts =>
    let np := createCompressPathTag p t
    if isfile fs np then createCompressPath fs p ts else some np

/-- Candidate filename tried by `_unique_writable_file` at collision count
`k` (archivebot.py lines 72-89): the canonical `stem ++ ext` first, then
`stem ++ "-" ++ "{0:08d}".format k ++ ext` for each retry. -/
def candTail (stem ext : List Char) : Nat → List Char
  | 0 => stem ++ ext
  | Nat.succ k => stem ++ '-' :: (padZero8 (decRepr (Nat.succ k)) ++ ext)

/-- Candidate full path tried by `_unique_writable_file` at collision count `k`. -/
def cand (dir stem ext : List Char) (k : Nat) : List Char :=
  osPathJoin dir (candTail stem ext k)

/-- The retry loop of `_unique_writable_file`: starting at collision count
`k`, return the first count whose candidate path names no existing file
(`os.open` with `O_CREAT | O_EXCL` fails with `EEXIST` exactly on existing
paths).  Fuel makes the recursion structural; it is proved sufficient below. -/
def firstFreshIdx (fs : FS) (dir stem ext : List Char) : Nat → Nat → Option Nat
  | 0, _ => none
  | fuel + 1, k =>
    if isfile fs (cand dir stem ext k) then firstFreshIdx fs dir stem ext fuel (k + 1)
    else some k

/-- `_unique_writable_file` (archivebot.py lines 72-89): exclusively create
and return the first fresh candidate path.  The created file starts empty. -/
def uniqueWritableFile (fs : FS) (dir stem ext : List Char) : Option (List Char × FS) :=
  match firstFreshIdx fs dir stem ext (fs.length + 1) 0 with
  | some k => some (cand dir stem ext k, (cand dir stem ext k, []) :: fs)
  | none => none

/-- Abstract model of the byte stream `gzip.GzipFile` writes for a given
source content.  The claims under verification treat the compressed stream
as opaque bytes, so it is modelled as an injective framing of the source:
the gzip magic header `1f 8b` followed by the payload. -/
def gzipBytes (c : List Nat) : List Nat :=
  31 :: 139 :: c

/-- Filesystem-level actions performed by `compress`, in program order. -/
inductive FileAct : Type
  | openR (p : List Char)
  | create (p : List Char)
  | writeB (p : List Char) (bytes : List Nat)
  | closeW (p : List Char)
  | removeF (p : List Char)
deriving DecidableEq

/-- Outcome of one `compress` call. `invalidPath` is the `ValueError` of
`_split_compress_path`; `openErr` is the `IOError` of `open` on a missing
path; `ioErr` is an I/O failure while writing the compressed stream;
`stuck` is exhaustion of the naming loop's fuel (proved unreachable). -/
inductive CompressResult : Type
  | ok (gzPath : List Char)
  | invalidPath
  | openErr
  | ioErr
  | stuck
deriving DecidableEq

/-- Result state of one `compress` call: outcome, final filesystem, and the
trace of filesystem actions in the order the source performs them. -/
structure CompressOut : Type where
  res : CompressResult
  fs : FS
  tr : List FileAct
deriving DecidableEq

/-- `compress` (archivebot.py lines 143-160).  Program order as in the
source: `open(path, "rb")` first; then `_split_compress_path` (its
`ValueError` therefore fires only for existing files); then
`os.path.splitext` and `_unique_writable_file(directory, stem, ext + ".gz")`;
then the gzip stream is written (`compressed.close()` runs in a `finally`,
so the partial output file stays in place on a write fault and `os.remove`
is never reached); only after the `with` blocks complete is the original
removed.  `fail = some k` injects an I/O fault after `k` bytes of the
compressed stream have been written. -/
def compress (fs : FS) (path : List Char) (fail : Option Nat) : CompressOut :=
  match lookupFS fs path with
  | none => ⟨CompressResult.openErr, fs, []⟩
  | some content =>
    match splitCompressPath path with
    | none => ⟨CompressResult.invalidPath, fs, [FileAct.openR path]⟩
    | some df =>
      let se := splitext df.2
      match uniqueWritableFile fs df.1 se.1 (se.2 ++ ['.', 'g', 'z']) with
      | none => ⟨CompressResult.stuck, fs, [FileAct.openR path]⟩
      | some gzf =>
        match fail with
        | none =>
          ⟨CompressResult.ok gzf.1,
            removeFS (updateFS gzf.2 gzf.1 (gzipBytes content)) path,
            [FileAct.openR path, FileAct.create gzf.1,
              FileAct.writeB gzf.1 (gzipBytes content), FileAct.closeW gzf.1,
              FileAct.removeF path]⟩
        | some k =>
          ⟨CompressResult.ioErr,
            updateFS gzf.2 gzf.1 ((gzipBytes content).take k),
            [FileAct.openR path, FileAct.create gzf.1,
              FileAct.writeB gzf.1 ((gzipBytes content).take k), FileAct.closeW gzf.1]⟩

/-- A sequence of `compress` calls, each seeing the filesystem left by the
previous one (the worker is serial); returns the final filesystem and the
output paths of the successful calls, in order. -/
def compressSeq : FS → List (List Char × Option Nat) → FS × List (List Char)
  | fs, [] => (fs, [])
  | fs, job :: rest =>
    let out := compress fs job.1 job.2
    let r := compressSeq out.fs rest
    match out.res with
    | CompressResult.ok gz => (r.1, gz :: r.2)
    | _ => r

/-- Outcome of one iteration of the `ArchiveBot._compress` worker loop
(archivebot.py lines 260-269) for a dequeued path. -/
inductive WorkerOutcome : Type
  | compressedOk (gzPath : List Char)
  | loggedInvalid
  | raisedError
deriving DecidableEq

/-- One iteration of the worker loop: run `compress`; `except ValueError`
catches exactly the invalid-path case (logged, loop continues); every other
exception propagates out of the worker. -/
def workerStep (fs : FS) (p : List Char) (fail : Option Nat) : WorkerOutcome × FS :=
  let out := compress fs p fail
  match out.res with
  | CompressResult.ok gz => (WorkerOutcome.compressedOk gz, out.fs)
  | CompressResult.invalidPath => (WorkerOutcome.loggedInvalid, out.fs)
  | _ => (WorkerOutcome.raisedError, out.fs)

/-- `rotate` (archivebot.py lines 163-173) as a function of the sequence of
day values observed at successive polls of `datetime.utcnow().day`, with
`last` threaded through: the entry for each poll is `true` when the signal
is emitted at that poll.  `last` starts as Python's `None`. -/
def rotateRun (last : Option Nat) : List Nat → List Bool
  | [] => []
  | d :: ds =>
    if some d = last then false :: rotateRun last ds
    else true :: rotateRun (some d) ds

/-- The emission pattern of the `rotate` stream over a poll sequence,
starting from its initial state `last = None`. -/
def rotateSignals (days : List Nat) : List Bool :=
  rotateRun none days

/-- Events consumed by `ArchiveBot._collect` on its single ordered channel:
the rotation sentinel object, or an incoming event whose serialized line
(`json.dumps(...) + os.linesep`) is abstracted as its bytes. -/
inductive CEvent : Type
  | rotateEv
  | record (line : List Nat)

/-- Actions performed by one `_collect` step, in program order. -/
inductive CAct : Type
  | flushA (p : List Char)
  | closeA (p : List Char)
  | renameA (oldPath newPath : List Char)
  | enqueueA (delay : Nat) (p : List Char)
  | openA (p : List Char)
  | writeA (p : List Char) (line : List Nat)
deriving DecidableEq

/-- State of the `_collect` stream: the filesystem, the open archive file's
path (`none` models `archive = None`), and the compression queue contents
as (delay, path) pairs in enqueue order. -/
structure CollSt : Type where
  fs : FS
  archive : Option (List Char)
  queue : List (Nat × List Char)
deriving DecidableEq

/-- `open(path, "ab", buffering=1)`: create the file empty if absent,
otherwise keep its content (append mode). -/
def ensureFile (fs : FS) (p : List Char) : FS :=
  if isfile fs p then fs else (p, []) :: fs

/-- Append a serialized line to the file at `p`.  With `buffering=1` every
line-terminated write reaches the file, so no separate buffer is modelled
and `flush` is a pure trace event. -/
def appendFile (fs : FS) (p : List Char) (line : List Nat) : FS :=
  match fs with
  | [] => []
  | e :: rest => if e.1 = p then (e.1, e.2 ++ line) :: appendFile rest p line
                 else e :: appendFile rest p line

/-- `os.rename(old, new)` over the model (no-op when the source is absent;
`_collect` only renames the file it has itself created). -/
def renameFS (fs : FS) (oldPath newPath : List Char) : FS :=
  match lookupFS fs oldPath with
  | none => fs
  | some c => (newPath, c) :: removeFS fs oldPath

/-- One step of `ArchiveBot._collect` (archivebot.py lines 235-253) on one
received event.  `tags` is the stream of `random.getrandbits(32)` draws
available to `_rename`'s `_create_compress_path`; `todayPath` abstracts the
path `open_archive` would open at the current time.  On the rotation
sentinel with a file open the source runs, in order: `archive.flush()`,
`archive.close()`, `_rename(archive.name)` (evaluated before the queue
call), `compress.queue(0.0, ...)`, then `archive = None`. -/
def collectStep (st : CollSt) (tags : List Nat) (todayPath : List Char) :
    CEvent → Option (CollSt × List CAct)
  | CEvent.rotateEv =>
    match st.archive with
    | none => some (st, [])
    | some ap =>
      match createCompressPath st.fs ap tags with
      | none => none
      | some np =>
        some (⟨renameFS st.fs ap np, none, st.queue ++ [(0, np)]⟩,
          [CAct.flushA ap, CAct.closeA ap, CAct.renameA ap np, CAct.enqueueA 0 np])
  | CEvent.record line =>
    match st.archive with
    | none =>
      let fs1 := ensureFile st.fs todayPath
      some (⟨appendFile fs1 todayPath line, some todayPath, st.queue⟩,
        [CAct.openA todayPath, CAct.writeA todayPath line])
    | some ap =>
      some (⟨appendFile st.fs ap line, st.archive, st.queue⟩, [CAct.writeA ap line])

/-- The files `os.walk(dir)` visits, over the flat path-set filesystem:
exactly the stored paths extending `dir ++ "/"` (the walk reconstructs each
full path as `os.path.join(root, filename)`). -/
def walkFiles (fs : FS) (dir : List Char) : List (List Char) :=
  (keysFS fs).filter (fun p => (dir ++ ['/']).isPrefixOf p)

/-- The startup recovery scan of `ArchiveBot._archive` (archivebot.py lines
221-225): walk the source's subtree and enqueue, with delay `0.0`, every
path satisfying `_is_compress_path`, onto the freshly created (empty)
compression queue, in walk order. -/
def startupScan (fs : FS) (dir : List Char) : List (Nat × List Char) :=
  (walkFiles fs dir).foldl (fun q p => if isCompressPath p then q ++ [(0, p)] else q) []

/-- UTF-8 encoding of one character as bytes, the semantics of Python's
`.encode("utf-8")`. -/
def utf8EncodeCharNat (c : Char) : List Nat :=
  let n := c.toNat
  if n < 128 then [n]
  else if n < 2048 then [192 + n / 64, 128 + n % 64]
  else if n < 65536 then [224 + n / 4096, 128 + n / 64 % 64, 128 + n % 64]
  else [240 + n / 262144, 128 + n / 4096 % 64, 128 + n / 64 % 64, 128 + n % 64]

/-- UTF-8 encoding of a string as a byte list. -/
def utf8Encode (s : List Char) : List Nat :=
  (s.map utf8EncodeCharNat).join

/-- Uppercase hexadecimal digit, as in `urllib.quote`'s `"%%%02X"` escapes. -/
def pctUpperHexDigit (d : Nat) : Char :=
  if d < 10 then Char.ofNat (48 + d) else Char.ofNat (55 + d)

/-- The byte set `urllib.quote` leaves unescaped for `safe=" @"`: Python 2
`urllib.always_safe` (ASCII letters, digits, `_`, `.`, `-`) plus the two
caller-supplied safe characters, space (32) and `@` (64). -/
def quoteSafeByte (b : Nat) : Bool :=
  decide ((65 ≤ b ∧ b ≤ 90) ∨ (97 ≤ b ∧ b ≤ 122) ∨ (48 ≤ b ∧ b ≤ 57) ∨
    b = 95 ∨ b = 46 ∨ b = 45 ∨ b = 32 ∨ b = 64)

/-- `urllib.quote` on one byte with `safe=" @"`: safe bytes pass through,
every other byte becomes `%XX` with uppercase hex digits. -/
def quoteByte (b : Nat) : List Char :=
  if quoteSafeByte b then [Char.ofNat b]
  else ['%', pctUpperHexDigit (b / 16 % 16), pctUpperHexDigit (b % 16)]

/-- `urllib.quote(bytes, safe=" @")` over a whole byte string. -/
def quoteBytes (bs : List Nat) : List Char :=
  (bs.map quoteByte).join

/-- Modelled from the spec: the `JID` class of the external `idiokit`
library is not part of this repository's sources.  Per the spec a source
identifier is a canonical bare JID, and a full JID additionally carries a
resource after a `/`; stringprep normalization and syntax validation are
elided (the spec's inputs are already case/representation-normalized
upstream). -/
structure JIDm : Type where
  bareStr : List Char
  resource : Option (List Char)
deriving DecidableEq

/-- Split a JID string at its first `/` into the bare part and the resource
(if any). -/
def splitSlash : List Char → List Char × Option (List Char)
  | [] => ([], none)
  | c :: rest =>
    if c = '/' then ([], some rest)
    else
      let r := splitSlash rest
      (c :: r.1, r.2)

/-- Modelled from the spec: parsing `JID(jid)` of the external `idiokit`
library — the part before the first `/` is the bare JID, the part after it
the resource. -/
def parseJID (s : List Char) : JIDm :=
  let r := splitSlash s
  ⟨r.1, r.2⟩

/-- `JID.bare()`: the same JID with the resource dropped. -/
def jidBare (j : JIDm) : JIDm :=
  ⟨j.bareStr, none⟩

/-- `_encode_room_jid` (archivebot.py lines 125-134): raise `ValueError`
(modelled as `none`) when the parsed JID differs from its own bare form,
otherwise percent-escape the UTF-8 encoding of the (bare) JID string with
`safe=" @"`. -/
def encodeRoomJid (s : List Char) : Option (List Char) :=
  let j := parseJID s
  if j = jidBare j then some (quoteBytes (utf8Encode j.bareStr)) else none

/-! Basic facts about the filesystem model. -/

theorem lookupFS_remove_self (fs : FS) (p : List Char) :
    lookupFS (removeFS fs p) p = none := by
  induction fs with
  | nil => rfl
  | cons e rest ih =>
    simp only [removeFS]
    split
    case isTrue h => exact ih
    case isFalse h => simp [lookupFS, h, ih]

theorem lookupFS_remove_ne (fs : FS) (p q : List Char) (h : ¬ q = p) :
    lookupFS (removeFS fs p) q = lookupFS fs q := by
  induction fs with
  | nil => rfl
  | cons e rest ih =>
    simp only [removeFS]
    split
    case isTrue he =>
      have hne : ¬ e.1 = q := fun hq => h (hq.symm.trans he)
      simp [lookupFS, hne, ih]
    case isFalse he => simp [lookupFS, ih]

theorem lookupFS_update_ne (fs : FS) (p : List Char) (c : List Nat) (q : List Char)
    (h : ¬ q = p) : lookupFS (updateFS fs p c) q = lookupFS fs q := by
  induction fs with
  | nil => rfl
  | cons e rest ih =>
    simp only [updateFS]
    split
    case isTrue he =>
      have hne : ¬ p = q := fun hq => h hq.symm
      have hne2 : ¬ e.1 = q := fun hq => h (hq.symm.trans he)
      simp [lookupFS, hne, hne2, ih]
    case isFalse he => simp [lookupFS, ih]

theorem lookupFS_update_self (fs : FS) (p : List Char) (c : List Nat)
    (h : isfile fs p = true) : lookupFS (updateFS fs p c) p = some c := by
  induction fs with
  | nil => simp [isfile, lookupFS] at h
  | cons e rest ih =>
    simp only [updateFS]
    split
    case isTrue he => simp [lookupFS]
    case isFalse he =>
      simp only [isfile, lookupFS, he, if_neg] at h
      simp [lookupFS, he, ih h]

theorem isfile_remove_ne (fs : FS) (p q : List Char) (h : ¬ q = p) :
    isfile (removeFS fs p) q = isfile fs q := by
  simp [isfile, lookupFS_remove_ne fs p q h]

theorem isfile_iff_mem_keys (fs : FS) (p : List Char) :
    isfile fs p = true ↔ p ∈ keysFS fs := by
  induction fs with
  | nil => simp [isfile, lookupFS, keysFS]
  | cons e rest ih =>
    by_cases he : e.1 = p
    · simp [isfile, lookupFS, keysFS, he]
    · have hpe : ¬ p = e.1 := fun hq => he hq.symm
      simp [isfile, lookupFS, keysFS, he, hpe] at ih ⊢
      exact ih

theorem keysFS_update (fs : FS) (p : List Char) (c : List Nat) :
    keysFS (updateFS fs p c) = keysFS fs := by
  induction fs with
  | nil => rfl
  | cons e rest ih =>
    by_cases he : e.1 = p
    · rw [updateFS, if_pos he]
      simp [keysFS] at ih ⊢
      exact ⟨he.symm, ih⟩
    · rw [updateFS, if_neg he]
      simp [keysFS] at ih ⊢
      exact ih

theorem isfile_update (fs : FS) (p : List Char) (c : List Nat) (q : List Char) :
    isfile (updateFS fs p c) q = isfile fs q := by
  cases hq : isfile fs q
  · cases hu : isfile (updateFS fs p c) q
    · rfl
    · exfalso
      have hm := (isfile_iff_mem_keys _ q).mp hu
      rw [keysFS_update] at hm
      have hf := (isfile_iff_mem_keys fs q).mpr hm
      rw [hq] at hf
      exact Bool.false_ne_true hf
  · have hm := (isfile_iff_mem_keys fs q).mp hq
    rw [← keysFS_update fs p c] at hm
    exact (isfile_iff_mem_keys _ q).mpr hm

theorem lookupFS_cons_ne (e : List Char × List Nat) (fs : FS) (q : List Char)
    (h : ¬ e.1 = q) : lookupFS (e :: fs) q = lookupFS fs q := by
  simp [lookupFS, h]

/-! Facts about digit rendering. -/

theorem charOfNat_toNat (n : Nat) (h : n < 55296) : (Char.ofNat n).toNat = n := by
  simp [Char.ofNat, Nat.isValidChar, h, Char.ofNatAux, Char.toNat, UInt32.toNat]

theorem hexDigitChar_toNat_dec (d : Nat) (h : d < 10) :
    (hexDigitChar d).toNat = 48 + d := by
  simp only [hexDigitChar, h, if_pos]
  exact charOfNat_toNat (48 + d) (by omega)

theorem hexDigitChar_toNat_hex (d : Nat) (h1 : 10 ≤ d) (h2 : d < 16) :
    (hexDigitChar d).toNat = 87 + d := by
  have hd : ¬ d < 10 := Nat.not_lt_of_ge h1
  simp only [hexDigitChar, hd, if_neg, if_false]
  exact charOfNat_toNat (87 + d) (by omega)

theorem decRepr_toNat (n : Nat) : ∀ c ∈ decRepr n, 48 ≤ c.toNat ∧ c.toNat ≤ 57 := by
  induction n using Nat.strong_induction_on with
  | _ n ih =>
    intro c hc
    rw [decRepr] at hc
    by_cases h : n < 10
    · rw [dif_pos h] at hc
      simp only [List.mem_singleton] at hc
      subst hc
      rw [hexDigitChar_toNat_dec n h]
      omega
    · rw [dif_neg h] at hc
      simp only [List.mem_append, List.mem_singleton] at hc
      rcases hc with hc | hc
      · exact ih (n / 10) (Nat.div_lt_self (by omega) (by omega)) c hc
      · subst hc
        rw [hexDigitChar_toNat_dec (n % 10) (Nat.mod_lt n (by omega))]
        omega

theorem decVal_append (a b : List Char) :
    decVal (a ++ b) = decVal a * 10 ^ b.length + decVal b := by
  induction a with
  | nil => simp [decVal]
  | cons c rest ih =>
    simp only [List.cons_append, decVal, ih, List.append_eq, List.length_append]
    ring

theorem decVal_replicate_zero (k : Nat) : decVal (List.replicate k '0') = 0 := by
  induction k with
  | zero => rfl
  | succ k ih =>
    have h0 : ('0' : Char).toNat = 48 := rfl
    rw [List.replicate_succ]
    simp [decVal, ih, h0]

theorem decVal_decRepr (n : Nat) : decVal (decRepr n) = n := by
  induction n using Nat.strong_induction_on with
  | _ n ih =>
    rw [decRepr]
    by_cases h : n < 10
    · rw [dif_pos h]
      simp [decVal, hexDigitChar_toNat_dec n h]
    · rw [dif_neg h]
      rw [decVal_append]
      have hmod : n % 10 < 10 := Nat.mod_lt n (by omega)
      simp [decVal, hexDigitChar_toNat_dec (n % 10) hmod,
        ih (n / 10) (Nat.div_lt_self (by omega) (by omega))]
      omega

theorem decVal_padZero8_decRepr (n : Nat) : decVal (padZero8 (decRepr n)) = n := by
  rw [padZero8, decVal_append, decVal_replicate_zero, decVal_decRepr]
  simp

theorem padZero8_decRepr_inj (a b : Nat)
    (h : padZero8 (decRepr a) = padZero8 (decRepr b)) : a = b := by
  have := congrArg decVal h
  rwa [decVal_padZero8_decRepr, decVal_padZero8_decRepr] at this

theorem padZero8_length (s : List Char) : (padZero8 s).length = max 8 s.length := by
  simp [padZero8]
  omega

theorem hexRepr_isHex (n : Nat) : ∀ c ∈ hexRepr n, isHexDigitCI c = true := by
  induction n using Nat.strong_induction_on with
  | _ n ih =>
    intro c hc
    rw [hexRepr] at hc
    by_cases h : n < 16
    · rw [dif_pos h] at hc
      simp only [List.mem_singleton] at hc
      subst hc
      by_cases hd : n < 10
      · simp [isHexDigitCI, hexDigitChar_toNat_dec n hd]
        omega
      · simp [isHexDigitCI, hexDigitChar_toNat_hex n (by omega) h]
        omega
    · rw [dif_neg h] at hc
      simp only [List.mem_append, List.mem_singleton] at hc
      rcases hc with hc | hc
      · exact ih (n / 16) (Nat.div_lt_self (by omega) (by omega)) c hc
      · subst hc
        have hmod : n % 16 < 16 := Nat.mod_lt n (by omega)
        by_cases hd : n % 16 < 10
        · simp [isHexDigitCI, hexDigitChar_toNat_dec (n % 16) hd]
          omega
        · simp [isHexDigitCI, hexDigitChar_toNat_hex (n % 16) (by omega) hmod]
          omega

theorem hexRepr_length_le (k : Nat) : ∀ n : Nat, n < 16 ^ (k + 1) →
    (hexRepr n).length ≤ k + 1 := by
  induction k with
  | zero =>
    intro n hn
    rw [hexRepr]
    rw [pow_one] at hn
    rw [dif_pos hn]
    simp
  | succ k ih =>
    intro n hn
    rw [hexRepr]
    by_cases h : n < 16
    · rw [dif_pos h]
      simp
    · rw [dif_neg h]
      simp only [List.length_append, List.length_singleton]
      have hdiv : n / 16 < 16 ^ (k + 1) := by
        rw [Nat.div_lt_iff_lt_mul (by omega)]
        calc n < 16 ^ (k + 1 + 1) := hn
        _ = 16 ^ (k + 1) * 16 := by ring
      have := ih (n / 16) hdiv
      omega

/-! Facts about path splitting and joining. -/

theorem takeWhile_append_all {α : Type} (p : α → Bool) (a b : List α)
    (h : ∀ x ∈ a, p x = true) : (a ++ b).takeWhile p = a ++ b.takeWhile p := by
  induction a with
  | nil => simp
  | cons c rest ih =>
    have hc : p c = true := h c (by simp)
    simp only [List.cons_append, List.takeWhile_cons, hc, if_pos]
    rw [ih (fun x hx => h x (by simp [hx]))]

theorem dropWhile_append_all {α : Type} (p : α → Bool) (a b : List α)
    (h : ∀ x ∈ a, p x = true) : (a ++ b).dropWhile p = b.dropWhile p := by
  induction a with
  | nil => simp
  | cons c rest ih =>
    have hc : p c = true := h c (by simp)
    simp only [List.cons_append, List.dropWhile_cons, hc, if_pos]
    exact ih (fun x hx => h x (by simp [hx]))

theorem dropWhile_head_false {α : Type} (p : α → Bool) (l : List α) :
    ∀ c cs, l.dropWhile p = c :: cs → p c = false := by
  induction l with
  | nil => intro c cs h; cases h
  | cons a rest ih =>
    intro c cs h
    rw [List.dropWhile_cons] at h
    by_cases hp : p a = true
    · rw [if_pos hp] at h
      exact ih c cs h
    · rw [if_neg hp] at h
      cases h
      exact Bool.eq_false_iff.mpr hp

theorem all_slash_of_any_eq_false {l : List Char}
    (h : l.any (fun c => decide (¬ c = '/')) = false) : ∀ c ∈ l, c = '/' := by
  intro c hc
  have h2 := List.any_eq_false.mp h c hc
  simpa using h2

theorem osPathSplit_snd (p : List Char) :
    (osPathSplit p).2 = (p.reverse.takeWhile (fun c => decide (¬ c = '/'))).reverse := by
  simp only [osPathSplit]
  split <;> rfl

theorem osPathSplit_tail_ne_slash (p : List Char) :
    ∀ c ∈ (osPathSplit p).2, ¬ c = '/' := by
  intro c hc
  rw [osPathSplit_snd, List.mem_reverse] at hc
  have h2 := List.mem_takeWhile_imp hc
  simpa using h2

theorem osPathSplit_head_shape (p : List Char) :
    (osPathSplit p).1 = [] ∨ (∀ c ∈ (osPathSplit p).1, c = '/') ∨
      ∃ c, (osPathSplit p).1.getLast? = some c ∧ ¬ c = '/' := by
  simp only [osPathSplit]
  split
  case isTrue h =>
    cases hd : (((p.reverse.dropWhile (fun c => decide (¬ c = '/'))).reverse.reverse).dropWhile
        (fun c => decide (c = '/'))) with
    | nil => left; simp [hd]
    | cons c cs =>
      right; right
      refine ⟨c, ?_, ?_⟩
      · simp only [hd, List.getLast?_reverse]
        rfl
      · have h2 := dropWhile_head_false _ _ c cs hd
        simpa using h2
  case isFalse h =>
    by_cases hnil : (p.reverse.dropWhile (fun c => decide (¬ c = '/'))).reverse = []
    · left; exact hnil
    · right; left
      have hany : ((p.reverse.dropWhile (fun c => decide (¬ c = '/'))).reverse).any
          (fun c => decide (¬ c = '/')) = false := by
        cases hv : ((p.reverse.dropWhile (fun c => decide (¬ c = '/'))).reverse).any
            (fun c => decide (¬ c = '/')) with
        | false => rfl
        | true => exact absurd ⟨hnil, hv⟩ h
      exact all_slash_of_any_eq_false hany

theorem takeWhile_all_eq {α : Type} (p : α → Bool) (l : List α)
    (h : ∀ x ∈ l, p x = true) : l.takeWhile p = l := by
  induction l with
  | nil => rfl
  | cons c rest ih =>
    rw [List.takeWhile_cons, if_pos (h c (by simp))]
    rw [ih (fun x hx => h x (by simp [hx]))]

theorem takeWhile_cons_head_false {α : Type} (p : α → Bool) (c : α) (l : List α)
    (h : p c = false) : (c :: l).takeWhile p = [] := by
  rw [List.takeWhile_cons, if_neg (by simp [h])]

theorem dropWhile_cons_head_false {α : Type} (p : α → Bool) (c : α) (l : List α)
    (h : p c = false) : (c :: l).dropWhile p = c :: l := by
  rw [List.dropWhile_cons, if_neg (by simp [h])]

theorem takeWhile_all_false {α : Type} (p : α → Bool) (l : List α)
    (h : ∀ x ∈ l, p x = false) : l.takeWhile p = [] := by
  cases l with
  | nil => rfl
  | cons c rest => exact takeWhile_cons_head_false p c rest (h c (by simp))

theorem dropWhile_all_false {α : Type} (p : α → Bool) (l : List α)
    (h : ∀ x ∈ l, p x = false) : l.dropWhile p = l := by
  cases l with
  | nil => rfl
  | cons c rest => exact dropWhile_cons_head_false p c rest (h c (by simp))

/-- Joining a directory head produced by `osPathSplit` with a nonempty,
slash-free tail splits back to exactly that head and tail. -/
theorem osPathSplit_join (h t : List Char)
    (hshape : h = [] ∨ (∀ c ∈ h, c = '/') ∨ ∃ c, h.getLast? = some c ∧ ¬ c = '/')
    (ht : ∀ c ∈ t, ¬ c = '/') (htne : t ≠ []) :
    osPathSplit (osPathJoin h t) = (h, t) := by
  have hthead : ¬ t.head? = some '/' := by
    cases t with
    | nil => exact absurd rfl htne
    | cons c cs =>
      intro hc
      simp only [List.head?_cons, Option.some.injEq] at hc
      exact ht c (by simp) hc
  have hrevt : ∀ x ∈ t.reverse, (fun c => decide (¬ c = '/')) x = true := by
    intro x hx
    exact decide_eq_true (ht x (List.mem_reverse.mp hx))
  rcases hshape with hnil | hslash | ⟨c, hlast, hcne⟩
  · subst hnil
    rw [osPathJoin, if_neg hthead, if_pos (Or.inl rfl)]
    simp only [List.nil_append, osPathSplit]
    rw [takeWhile_all_eq _ _ hrevt]
    rw [List.dropWhile_eq_nil_iff.mpr (fun x hx => by simpa using hrevt x hx)]
    simp
  · by_cases hnil : h = []
    · subst hnil
      rw [osPathJoin, if_neg hthead, if_pos (Or.inl rfl)]
      simp only [List.nil_append, osPathSplit]
      rw [takeWhile_all_eq _ _ hrevt]
      rw [List.dropWhile_eq_nil_iff.mpr (fun x hx => by simpa using hrevt x hx)]
      simp
    · have hlast : h.getLast? = some '/' := by
        cases hg : h.getLast? with
        | none => exact absurd (List.getLast?_eq_none_iff.mp hg) hnil
        | some d =>
          have : d ∈ h := List.mem_of_mem_getLast? hg
          rw [hslash d this]
      rw [osPathJoin, if_neg hthead, if_pos (Or.inr hlast)]
      simp only [osPathSplit, List.reverse_append]
      have hallrev : ∀ x ∈ h.reverse, (fun c => decide (¬ c = '/')) x = false := by
        intro x hx
        simp [hslash x (List.mem_reverse.mp hx)]
      rw [takeWhile_append_all _ _ _ hrevt, dropWhile_append_all _ _ _ hrevt]
      rw [takeWhile_all_false _ _ hallrev]
      rw [dropWhile_all_false _ _ hallrev]
      have hanyf : (h.reverse.reverse).any (fun c => decide (¬ c = '/')) = false := by
        apply List.any_eq_false.mpr
        intro x hx
        simp only [List.reverse_reverse] at hx
        simp [hslash x hx]
      rw [if_neg]
      · simp
      · intro hcond
        rw [hanyf] at hcond
        exact Bool.false_ne_true hcond.2
  · have hne : h ≠ [] := by
      intro he
      rw [he] at hlast
      cases hlast
    have hcond2 : ¬ (h = [] ∨ h.getLast? = some '/') := by
      intro hc
      rcases hc with hc | hc
      · exact hne hc
      · rw [hlast] at hc
        exact hcne (Option.some.injEq _ _ ▸ hc)
    rw [osPathJoin, if_neg hthead, if_neg hcond2]
    have e1 : ((h ++ '/' :: t).reverse).takeWhile (fun c => decide (¬ c = '/')) = t.reverse := by
      rw [List.reverse_append, List.reverse_cons, List.append_assoc, List.singleton_append]
      rw [takeWhile_append_all _ _ _ hrevt]
      rw [takeWhile_cons_head_false _ _ _ (by simp)]
      simp
    have e2 : ((h ++ '/' :: t).reverse).dropWhile (fun c => decide (¬ c = '/')) =
        '/' :: h.reverse := by
      rw [List.reverse_append, List.reverse_cons, List.append_assoc, List.singleton_append]
      rw [dropWhile_append_all _ _ _ hrevt]
      rw [dropWhile_cons_head_false _ _ _ (by simp)]
    have e3 : List.dropWhile (fun c => decide (c = '/')) ('/' :: h.reverse) = h.reverse := by
      rw [List.dropWhile_cons, if_pos (by simp)]
      cases hrev : h.reverse with
      | nil => rfl
      | cons d rest =>
        have hdc : d = c := by
          have hh := List.head?_reverse h
          rw [hrev, hlast] at hh
          simp only [List.head?_cons, Option.some.injEq] at hh
          exact hh
        subst hdc
        exact dropWhile_cons_head_false _ _ _ (by simp [hcne])
    have hc1 : ('/' :: h.reverse).reverse ≠ [] := by simp
    have hc2 : (('/' :: h.reverse).reverse).any (fun c => decide (¬ c = '/')) = true := by
      apply List.any_eq_true.mpr
      refine ⟨c, ?_, decide_eq_true hcne⟩
      simp [List.mem_of_mem_getLast? hlast]
    simp only [osPathSplit, e1, e2]
    rw [if_pos ⟨hc1, hc2⟩]
    simp only [List.reverse_reverse, e3]

/-! Facts about the rotated-filename pattern. -/

theorem getLast?_cons_of_ne_nil {α : Type} (c : α) (l : List α) (h : l ≠ []) :
    (c :: l).getLast? = l.getLast? := by
  cases l with
  | nil => exact absurd rfl h
  | cons d rest => simp [List.getLast?_cons_cons]

theorem getLast?_append_right {α : Type} (a l : List α) (h : l ≠ []) :
    (a ++ l).getLast? = l.getLast? := by
  obtain ⟨x, hx⟩ : ∃ x, l.getLast? = some x := by
    cases hl : l.getLast? with
    | none => exact absurd (List.getLast?_eq_none_iff.mp hl) h
    | some x => exact ⟨x, rfl⟩
  rw [List.getLast?_append, hx, Option.or]

theorem takeWhile_head {α : Type} (p : α → Bool) (l : List α) (c : α) (cs : List α)
    (h : l.takeWhile p = c :: cs) : l.head? = some c := by
  cases l with
  | nil => cases h
  | cons a rest =>
    rw [List.takeWhile_cons] at h
    by_cases hp : p a = true
    · rw [if_pos hp] at h
      cases h
      rfl
    · rw [if_neg hp] at h
      cases h

theorem osPathSplit_getLast (p : List Char) (h : (osPathSplit p).2 ≠ []) :
    p.getLast? = (osPathSplit p).2.getLast? := by
  rw [osPathSplit_snd] at h ⊢
  rw [List.getLast?_reverse]
  cases htw : p.reverse.takeWhile (fun c => decide (¬ c = '/')) with
  | nil => rw [htw] at h; exact absurd rfl h
  | cons c cs =>
    have hh := takeWhile_head _ _ _ _ htw
    rw [List.head?_reverse] at hh
    rw [hh]
    rfl

theorem isHexDigitCI_ne_newline (c : Char) (h : isHexDigitCI c = true) : ¬ c = '\n' := by
  intro hc
  subst hc
  simp [isHexDigitCI] at h

theorem matchCompressFilename_wellformed (stem tag : List Char)
    (hnl : ∀ c ∈ stem, ¬ c = '\n') (hlen : tag.length = 8)
    (hhex : ∀ c ∈ tag, isHexDigitCI c = true) :
    matchCompressFilename (stem ++ compressMarker ++ tag) = some stem := by
  have htagne : tag ≠ [] := by
    intro h
    rw [h] at hlen
    cases hlen
  obtain ⟨c0, hc0⟩ : ∃ x, tag.getLast? = some x := by
    cases hl : tag.getLast? with
    | none => exact absurd (List.getLast?_eq_none_iff.mp hl) htagne
    | some x => exact ⟨x, rfl⟩
  have hc0hex : isHexDigitCI c0 = true := hhex c0 (List.mem_of_mem_getLast? hc0)
  have hlastf : (stem ++ compressMarker ++ tag).getLast? = some c0 := by
    rw [getLast?_append_right _ tag htagne]
    exact hc0
  have hnotnl : ¬ (stem ++ compressMarker ++ tag).getLast? = some '\n' := by
    rw [hlastf]
    intro hx
    have hcnl : c0 = '\n' := by injection hx
    exact isHexDigitCI_ne_newline c0 hc0hex hcnl
  have hflen : (stem ++ compressMarker ++ tag).length = stem.length + 18 := by
    rw [List.length_append, List.length_append, hlen]
    have hm : compressMarker.length = 10 := rfl
    rw [hm]
  have hm10 : compressMarker.length = 10 := rfl
  have htake : (compressMarker ++ tag).take 10 = compressMarker := by
    rw [← hm10]
    exact List.take_left compressMarker tag
  have hdrop : (compressMarker ++ tag).drop 10 = tag := by
    rw [← hm10]
    exact List.drop_left compressMarker tag
  simp only [matchCompressFilename]
  rw [if_neg hnotnl]
  rw [if_neg (by rw [hflen]; omega)]
  rw [hflen]
  have hsub : stem.length + 18 - 18 = stem.length := by omega
  rw [hsub]
  rw [List.append_assoc, List.take_left, List.drop_left]
  rw [htake, hdrop]
  rw [if_pos ?hcond]
  case hcond =>
    refine ⟨by decide, ?_, ?_⟩
    · exact List.all_eq_true.mpr hhex
    · exact List.all_eq_true.mpr (fun c hc => decide_eq_true (hnl c hc))

theorem matchCompressFilename_chars (f s : List Char)
    (h : matchCompressFilename f = some s) : ∀ c ∈ s, c ∈ f := by
  intro c hc
  simp only [matchCompressFilename] at h
  split at h
  case isTrue hnl =>
    split at h
    case isTrue hl => cases h
    case isFalse hl =>
      split at h
      case isTrue hcond =>
        injection h with h
        subst h
        exact List.mem_of_mem_dropLast (List.mem_of_mem_take hc)
      case isFalse hcond => cases h
  case isFalse hnl =>
    split at h
    case isTrue hl => cases h
    case isFalse hl =>
      split at h
      case isTrue hcond =>
        injection h with h
        subst h
        exact List.mem_of_mem_take hc
      case isFalse hcond => cases h

theorem matchCompressFilename_ne_nil (f s : List Char)
    (h : matchCompressFilename f = some s) : f ≠ [] := by
  intro hf
  subst hf
  cases h

theorem matchCompressFilename_last (f s : List Char)
    (h : matchCompressFilename f = some s) :
    ∃ c, f.getLast? = some c ∧ (c = '\n' ∨ isHexDigitCI c = true) := by
  simp only [matchCompressFilename] at h
  by_cases hnl : f.getLast? = some '\n'
  · exact ⟨'\n', hnl, Or.inl rfl⟩
  · rw [if_neg hnl] at h
    split at h
    next hl => cases h
    next hl =>
      split at h
      case isFalse hcond => cases h
      case isTrue hcond =>
        have hsfxlen : (f.drop (f.length - 18)).length = 18 := by
          rw [List.length_drop]
          omega
        have hlast8 : ((f.drop (f.length - 18)).drop 10).length = 8 := by
          rw [List.length_drop, hsfxlen]
        have hlast8ne : (f.drop (f.length - 18)).drop 10 ≠ [] := by
          intro hx
          rw [hx] at hlast8
          cases hlast8
        obtain ⟨c, hc⟩ : ∃ x, ((f.drop (f.length - 18)).drop 10).getLast? = some x := by
          cases hg : ((f.drop (f.length - 18)).drop 10).getLast? with
          | none => exact absurd (List.getLast?_eq_none_iff.mp hg) hlast8ne
          | some x => exact ⟨x, rfl⟩
        refine ⟨c, ?_, Or.inr ?_⟩
        · have hsplit2 := List.take_append_drop 10 (f.drop (f.length - 18))
          have hsplit1 := List.take_append_drop (f.length - 18) f
          calc f.getLast? = (f.drop (f.length - 18)).getLast? := by
                rw [← hsplit1]
                rw [getLast?_append_right]
                · rw [hsplit1]
                · intro hx
                  have := congrArg List.length hx
                  rw [hsfxlen] at this
                  cases this
          _ = ((f.drop (f.length - 18)).drop 10).getLast? := by
                rw [← hsplit2]
                rw [getLast?_append_right]
                · rw [hsplit2]
                · exact hlast8ne
          _ = some c := hc
        · have hall := hcond.2.1
          exact List.all_eq_true.mp hall c (List.mem_of_mem_getLast? hc)

/-! Facts about the exclusive-create naming loop. -/

theorem padZero8_chars (s : List Char) :
    ∀ c ∈ padZero8 s, c = '0' ∨ c ∈ s := by
  intro c hc
  rw [padZero8, List.mem_append] at hc
  rcases hc with hc | hc
  · exact Or.inl (List.eq_of_mem_replicate hc)
  · exact Or.inr hc

theorem padDec_not_slash (m : Nat) : ∀ c ∈ padZero8 (decRepr m), ¬ c = '/' := by
  intro c hc hslash
  have h47 : c.toNat = 47 := by rw [hslash]; rfl
  rcases padZero8_chars _ c hc with hc0 | hcd
  · rw [hc0] at h47
    cases h47
  · have := decRepr_toNat m c hcd
    omega

theorem candTail_noSlash (stem ext : List Char) (hs : ∀ c ∈ stem, ¬ c = '/')
    (he : ∀ c ∈ ext, ¬ c = '/') (k : Nat) :
    ∀ c ∈ candTail stem ext k, ¬ c = '/' := by
  cases k with
  | zero =>
    intro c hc
    rw [candTail, List.mem_append] at hc
    rcases hc with hc | hc
    · exact hs c hc
    · exact he c hc
  | succ k =>
    intro c hc
    rw [candTail, List.mem_append, List.mem_cons, List.mem_append] at hc
    rcases hc with hc | hc | hc | hc
    · exact hs c hc
    · intro hslash
      rw [hc] at hslash
      cases hslash
    · exact padDec_not_slash (k + 1) c hc
    · exact he c hc

theorem candTail_inj (stem ext : List Char) (j k : Nat)
    (h : candTail stem ext j = candTail stem ext k) : j = k := by
  have hpadlen : ∀ m : Nat, 8 ≤ (padZero8 (decRepr m)).length := by
    intro m
    rw [padZero8_length]
    omega
  cases j with
  | zero =>
    cases k with
    | zero => rfl
    | succ k =>
      exfalso
      have hl := congrArg List.length h
      simp only [candTail, List.length_append, List.length_cons] at hl
      have := hpadlen (k + 1)
      omega
  | succ j =>
    cases k with
    | zero =>
      exfalso
      have hl := congrArg List.length h
      simp only [candTail, List.length_append, List.length_cons] at hl
      have := hpadlen (j + 1)
      omega
    | succ k =>
      simp only [candTail] at h
      have h2 := List.append_cancel_left h
      injection h2 with hhd h3
      simp only [Nat.succ_eq_add_one] at h3
      have hlen : (padZero8 (decRepr (j + 1))).length = (padZero8 (decRepr (k + 1))).length := by
        have hl := congrArg List.length h3
        simp only [List.length_append] at hl
        omega
      have h4 := (List.append_inj h3 hlen).1
      have := padZero8_decRepr_inj (j + 1) (k + 1) h4
      omega

theorem head_ne_slash_of_noSlash (t : List Char) (h : ∀ c ∈ t, ¬ c = '/') :
    ¬ t.head? = some '/' := by
  cases t with
  | nil => intro hx; cases hx
  | cons c cs =>
    intro hx
    simp only [List.head?_cons, Option.some.injEq] at hx
    exact h c (by simp) hx

theorem osPathJoin_inj (d t1 t2 : List Char) (h1 : ∀ c ∈ t1, ¬ c = '/')
    (h2 : ∀ c ∈ t2, ¬ c = '/') (h : osPathJoin d t1 = osPathJoin d t2) : t1 = t2 := by
  rw [osPathJoin, osPathJoin, if_neg (head_ne_slash_of_noSlash t1 h1),
    if_neg (head_ne_slash_of_noSlash t2 h2)] at h
  by_cases hd : d = [] ∨ d.getLast? = some '/'
  · rw [if_pos hd, if_pos hd] at h
    exact List.append_cancel_left h
  · rw [if_neg hd, if_neg hd] at h
    have h3 := List.append_cancel_left h
    injection h3

theorem cand_inj (dir stem ext : List Char) (hs : ∀ c ∈ stem, ¬ c = '/')
    (he : ∀ c ∈ ext, ¬ c = '/') (j k : Nat)
    (h : cand dir stem ext j = cand dir stem ext k) : j = k := by
  apply candTail_inj stem ext
  exact osPathJoin_inj dir _ _ (candTail_noSlash stem ext hs he j)
    (candTail_noSlash stem ext hs he k) h

theorem exists_fresh_cand (fs : FS) (dir stem ext : List Char)
    (hs : ∀ c ∈ stem, ¬ c = '/') (he : ∀ c ∈ ext, ¬ c = '/') :
    ∃ k, k ≤ fs.length ∧ isfile fs (cand dir stem ext k) = false := by
  by_contra hcon
  push_neg at hcon
  have hall : ∀ k, k ≤ fs.length → cand dir stem ext k ∈ keysFS fs := by
    intro k hk
    apply (isfile_iff_mem_keys fs _).mp
    cases hi : isfile fs (cand dir stem ext k) with
    | true => rfl
    | false => exact absurd hi (hcon k hk)
  have hinj : Set.InjOn (cand dir stem ext) (Finset.range (fs.length + 1)) :=
    fun a _ b _ hab => cand_inj dir stem ext hs he a b hab
  have hsub : (Finset.range (fs.length + 1)).image (cand dir stem ext) ⊆
      (keysFS fs).toFinset := by
    intro x hx
    simp only [Finset.mem_image, Finset.mem_range] at hx
    obtain ⟨k, hk, hkx⟩ := hx
    subst hkx
    exact List.mem_toFinset.mpr (hall k (by omega))
  have hcard := Finset.card_le_card hsub
  rw [Finset.card_image_of_injOn hinj, Finset.card_range] at hcard
  have hle := List.toFinset_card_le (keysFS fs)
  have hlen : (keysFS fs).length = fs.length := List.length_map _ _
  omega

theorem firstFreshIdx_spec (fs : FS) (dir stem ext : List Char) :
    ∀ fuel start k, firstFreshIdx fs dir stem ext fuel start = some k →
      isfile fs (cand dir stem ext k) = false ∧ start ≤ k ∧
      ∀ j, start ≤ j → j < k → isfile fs (cand dir stem ext j) = true := by
  intro fuel
  induction fuel with
  | zero =>
    intro start k h
    cases h
  | succ fuel ih =>
    intro start k h
    rw [firstFreshIdx] at h
    by_cases hf : isfile fs (cand dir stem ext start) = true
    · rw [if_pos hf] at h
      obtain ⟨ha, hb, hc⟩ := ih (start + 1) k h
      refine ⟨ha, by omega, ?_⟩
      intro j hj1 hj2
      by_cases hj : j = start
      · rw [hj]
        exact hf
      · exact hc j (by omega) hj2
    · rw [if_neg hf] at h
      injection h with h
      subst h
      refine ⟨Bool.eq_false_iff.mpr hf, Nat.le_refl _, ?_⟩
      intro j hj1 hj2
      omega

theorem firstFreshIdx_isSome (fs : FS) (dir stem ext : List Char) :
    ∀ fuel start k, isfile fs (cand dir stem ext k) = false → start ≤ k →
      k < start + fuel → (firstFreshIdx fs dir stem ext fuel start).isSome = true := by
  intro fuel
  induction fuel with
  | zero =>
    intro start k h1 h2 h3
    omega
  | succ fuel ih =>
    intro start k h1 h2 h3
    rw [firstFreshIdx]
    by_cases hf : isfile fs (cand dir stem ext start) = true
    · rw [if_pos hf]
      have hks : ¬ k = start := by
        intro he
        rw [he, hf] at h1
        cases h1
      exact ih (start + 1) k h1 (by omega) (by omega)
    · rw [if_neg hf]
      rfl

theorem uniqueWritableFile_isSome (fs : FS) (dir stem ext : List Char)
    (hs : ∀ c ∈ stem, ¬ c = '/') (he : ∀ c ∈ ext, ¬ c = '/') :
    ∃ r, uniqueWritableFile fs dir stem ext = some r := by
  obtain ⟨k, hk, hfresh⟩ := exists_fresh_cand fs dir stem ext hs he
  have hsome := firstFreshIdx_isSome fs dir stem ext (fs.length + 1) 0 k hfresh
    (by omega) (by omega)
  rw [uniqueWritableFile]
  cases hm : firstFreshIdx fs dir stem ext (fs.length + 1) 0 with
  | none =>
    rw [hm] at hsome
    cases hsome
  | some k2 => exact ⟨_, rfl⟩

theorem uniqueWritableFile_spec (fs : FS) (dir stem ext p : List Char) (fs2 : FS)
    (h : uniqueWritableFile fs dir stem ext = some (p, fs2)) :
    (∃ k, p = cand dir stem ext k ∧
      ∀ j, j < k → isfile fs (cand dir stem ext j) = true) ∧
      isfile fs p = false ∧ fs2 = (p, []) :: fs := by
  rw [uniqueWritableFile] at h
  cases hm : firstFreshIdx fs dir stem ext (fs.length + 1) 0 with
  | none =>
    rw [hm] at h
    cases h
  | some k =>
    rw [hm] at h
    simp only [Option.some.injEq, Prod.mk.injEq] at h
    obtain ⟨hp, hfs⟩ := h
    obtain ⟨ha, hb, hc⟩ := firstFreshIdx_spec fs dir stem ext _ 0 k hm
    subst hp
    refine ⟨⟨k, rfl, fun j hj => hc j (by omega) hj⟩, ha, hfs.symm⟩

theorem osPathJoin_getLast (d t : List Char) (ht : t ≠ []) :
    (osPathJoin d t).getLast? = t.getLast? := by
  rw [osPathJoin]
  by_cases hb : t.head? = some '/'
  · rw [if_pos hb]
  · rw [if_neg hb]
    by_cases hd : d = [] ∨ d.getLast? = some '/'
    · rw [if_pos hd]
      exact getLast?_append_right d t ht
    · rw [if_neg hd]
      rw [getLast?_append_right d ('/' :: t) (by simp)]
      exact getLast?_cons_of_ne_nil '/' t ht

theorem candTail_gz_ne_nil (stem ext0 : List Char) (k : Nat) :
    candTail stem (ext0 ++ ['.', 'g', 'z']) k ≠ [] := by
  cases k with
  | zero =>
    simp [candTail]
  | succ k =>
    simp [candTail]

theorem candTail_gz_getLast (stem ext0 : List Char) (k : Nat) :
    (candTail stem (ext0 ++ ['.', 'g', 'z']) k).getLast? = some 'z' := by
  have hgz : (ext0 ++ ['.', 'g', 'z']).getLast? = some 'z' := by
    rw [getLast?_append_right ext0 _ (by simp)]
    rfl
  cases k with
  | zero =>
    rw [candTail, getLast?_append_right _ _ (by simp)]
    exact hgz
  | succ k =>
    rw [candTail, getLast?_append_right _ _ (by simp)]
    rw [getLast?_cons_of_ne_nil _ _ (by simp)]
    rw [getLast?_append_right _ _ (by simp)]
    exact hgz

theorem cand_gz_getLast (dir stem ext0 : List Char) (k : Nat) :
    (cand dir stem (ext0 ++ ['.', 'g', 'z']) k).getLast? = some 'z' := by
  rw [cand, osPathJoin_getLast dir _ (candTail_gz_ne_nil stem ext0 k)]
  exact candTail_gz_getLast stem ext0 k

/-! Facts about the compressor. -/

theorem isfile_cons_of_isfile (e : List Char × List Nat) (fs : FS) (q : List Char)
    (h : isfile fs q = true) : isfile (e :: fs) q = true := by
  by_cases he : e.1 = q
  · simp [isfile, lookupFS, he]
  · simp only [isfile, lookupFS, he, if_neg, if_false]
    exact h

theorem splitCompressPath_tail (p d f : List Char)
    (h : splitCompressPath p = some (d, f)) :
    d = (osPathSplit p).1 ∧ matchCompressFilename (osPathSplit p).2 = some f := by
  simp only [splitCompressPath] at h
  cases hm : matchCompressFilename (osPathSplit p).2 with
  | none =>
    rw [hm] at h
    cases h
  | some stem =>
    rw [hm] at h
    have h2 : some ((osPathSplit p).1, stem) = some (d, f) := h
    injection h2 with h3
    obtain ⟨h4, h5⟩ := (Prod.mk.injEq _ _ _ _).mp h3
    exact ⟨h4.symm, by rw [h5]⟩

theorem splitCompressPath_noSlash (p d f : List Char)
    (h : splitCompressPath p = some (d, f)) : ∀ c ∈ f, ¬ c = '/' := by
  obtain ⟨hd, hm⟩ := splitCompressPath_tail p d f h
  intro c hc
  exact osPathSplit_tail_ne_slash p c (matchCompressFilename_chars _ f hm c hc)

theorem splitext_chars (f : List Char) :
    (∀ c ∈ (splitext f).1, c ∈ f) ∧ (∀ c ∈ (splitext f).2, c ∈ f) := by
  simp only [splitext]
  cases hf : f.reverse.findIdx? (fun c => decide (c = '.')) with
  | none => exact ⟨fun c hc => hc, fun c hc => by cases hc⟩
  | some r =>
    dsimp only
    by_cases hcond : ((List.take (f.length - 1 - r) f).any fun c => decide (¬ c = '.')) = true
    · rw [if_pos hcond]
      exact ⟨fun c hc2 => List.mem_of_mem_take hc2, fun c hc2 => List.mem_of_mem_drop hc2⟩
    · rw [if_neg hcond]
      exact ⟨fun c hc2 => hc2, fun c hc2 => by cases hc2⟩

theorem splitCompressPath_last (p d f : List Char)
    (h : splitCompressPath p = some (d, f)) :
    ∃ c, p.getLast? = some c ∧ (c = '\n' ∨ isHexDigitCI c = true) := by
  obtain ⟨hd, hm⟩ := splitCompressPath_tail p d f h
  obtain ⟨c, hc1, hc2⟩ := matchCompressFilename_last _ f hm
  refine ⟨c, ?_, hc2⟩
  rw [osPathSplit_getLast p (matchCompressFilename_ne_nil _ f hm)]
  exact hc1

theorem gz_ne_pattern_path (q p : List Char) (hz : q.getLast? = some 'z')
    (hp : ∃ c, p.getLast? = some c ∧ (c = '\n' ∨ isHexDigitCI c = true)) :
    ¬ q = p := by
  intro he
  subst he
  obtain ⟨c, hc1, hc2⟩ := hp
  rw [hz] at hc1
  injection hc1 with hc1
  have h122 : c.toNat = 122 := by
    rw [← hc1]
    rfl
  rcases hc2 with hc2 | hc2
  · rw [hc2] at h122
    cases h122
  · simp only [isHexDigitCI, decide_eq_true_eq] at hc2
    omega

theorem compress_openErr (fs : FS) (p : List Char) (fail : Option Nat)
    (h : lookupFS fs p = none) :
    compress fs p fail = ⟨CompressResult.openErr, fs, []⟩ := by
  rw [compress, h]

theorem compress_invalid (fs : FS) (p : List Char) (fail : Option Nat) (c : List Nat)
    (hl : lookupFS fs p = some c)
    (hm : matchCompressFilename (osPathSplit p).2 = none) :
    compress fs p fail = ⟨CompressResult.invalidPath, fs, [FileAct.openR p]⟩ := by
  have hsp : splitCompressPath p = none := by
    simp only [splitCompressPath, hm]
    rfl
  rw [compress, hl, hsp]

theorem compress_valid (fs : FS) (p : List Char) (c : List Nat) (d f : List Char)
    (hl : lookupFS fs p = some c) (hsp : splitCompressPath p = some (d, f)) :
    ∃ gzp,
      isfile fs gzp = false ∧ gzp.getLast? = some 'z' ∧
      compress fs p none = ⟨CompressResult.ok gzp,
        removeFS (updateFS ((gzp, []) :: fs) gzp (gzipBytes c)) p,
        [FileAct.openR p, FileAct.create gzp, FileAct.writeB gzp (gzipBytes c),
          FileAct.closeW gzp, FileAct.removeF p]⟩ ∧
      ∀ k, compress fs p (some k) = ⟨CompressResult.ioErr,
        updateFS ((gzp, []) :: fs) gzp ((gzipBytes c).take k),
        [FileAct.openR p, FileAct.create gzp, FileAct.writeB gzp ((gzipBytes c).take k),
          FileAct.closeW gzp]⟩ := by
  have hnos := splitCompressPath_noSlash p d f hsp
  have hstem : ∀ x ∈ (splitext f).1, ¬ x = '/' :=
    fun x hx => hnos x ((splitext_chars f).1 x hx)
  have hext : ∀ x ∈ (splitext f).2 ++ ['.', 'g', 'z'], ¬ x = '/' := by
    intro x hx
    rw [List.mem_append] at hx
    rcases hx with hx | hx
    · exact hnos x ((splitext_chars f).2 x hx)
    · intro hs
      subst hs
      simp at hx
  obtain ⟨⟨gzp, fs2⟩, hu⟩ := uniqueWritableFile_isSome fs d (splitext f).1
    ((splitext f).2 ++ ['.', 'g', 'z']) hstem hext
  obtain ⟨⟨k0, hk0, hcoll⟩, hfresh, hfs2⟩ :=
    uniqueWritableFile_spec fs d (splitext f).1 ((splitext f).2 ++ ['.', 'g', 'z']) gzp fs2 hu
  have hz : gzp.getLast? = some 'z' := by
    rw [hk0]
    exact cand_gz_getLast d (splitext f).1 (splitext f).2 k0
  refine ⟨gzp, hfresh, hz, ?_, ?_⟩
  · rw [compress, hl, hsp]
    dsimp only
    rw [hu]
    dsimp only
    rw [hfs2]
  · intro k
    rw [compress, hl, hsp]
    dsimp only
    rw [hu]
    dsimp only
    rw [hfs2]

theorem splitCompressPath_none_of_match_none (p : List Char)
    (hsp : splitCompressPath p = none) :
    matchCompressFilename (osPathSplit p).2 = none := by
  cases hmm : matchCompressFilename (osPathSplit p).2 with
  | none => rfl
  | some stem =>
    simp only [splitCompressPath, hmm] at hsp
    have h2 : some ((osPathSplit p).1, stem) = (none : Option (List Char × List Char)) := hsp
    cases h2

theorem compress_preserves_gz (fs : FS) (p : List Char) (fail : Option Nat) (q : List Char)
    (hq : isfile fs q = true) (hz : q.getLast? = some 'z') :
    isfile (compress fs p fail).fs q = true := by
  cases hl : lookupFS fs p with
  | none =>
    rw [compress_openErr fs p fail hl]
    exact hq
  | some c =>
    cases hsp : splitCompressPath p with
    | none =>
      rw [compress_invalid fs p fail c hl (splitCompressPath_none_of_match_none p hsp)]
      exact hq
    | some df =>
      obtain ⟨d, f⟩ := df
      have hqp : ¬ q = p := gz_ne_pattern_path q p hz (splitCompressPath_last p d f hsp)
      obtain ⟨gzp, hfresh, hgz, hok, hio⟩ := compress_valid fs p c d f hl hsp
      cases fail with
      | none =>
        rw [hok]
        dsimp only
        rw [isfile_remove_ne _ p q hqp, isfile_update]
        exact isfile_cons_of_isfile _ fs q hq
      | some k =>
        rw [hio k]
        dsimp only
        rw [isfile_update]
        exact isfile_cons_of_isfile _ fs q hq

theorem compress_ok_spec (fs : FS) (p : List Char) (fail : Option Nat) (gz : List Char)
    (h : (compress fs p fail).res = CompressResult.ok gz) :
    isfile fs gz = false ∧ isfile (compress fs p fail).fs gz = true ∧
      gz.getLast? = some 'z' := by
  cases hl : lookupFS fs p with
  | none =>
    rw [compress_openErr fs p fail hl] at h
    cases h
  | some c =>
    cases hsp : splitCompressPath p with
    | none =>
      rw [compress_invalid fs p fail c hl (splitCompressPath_none_of_match_none p hsp)] at h
      cases h
    | some df =>
      obtain ⟨d, f⟩ := df
      obtain ⟨gzp, hfresh, hgzlast, hok, hio⟩ := compress_valid fs p c d f hl hsp
      cases fail with
      | none =>
        rw [hok] at h ⊢
        dsimp only at h ⊢
        injection h with h
        subst h
        refine ⟨hfresh, ?_, hgzlast⟩
        have hgzp : ¬ gzp = p :=
          gz_ne_pattern_path gzp p hgzlast (splitCompressPath_last p d f hsp)
        rw [isfile_remove_ne _ p gzp hgzp, isfile_update]
        simp [isfile, lookupFS]
      | some k =>
        rw [hio k] at h
        dsimp only at h
        cases h

theorem compressSeq_avoid (jobs : List (List Char × Option Nat)) :
    ∀ fs q, isfile fs q = true → q.getLast? = some 'z' →
      ¬ q ∈ (compressSeq fs jobs).2 := by
  induction jobs with
  | nil =>
    intro fs q hq hz
    simp [compressSeq]
  | cons job rest ih =>
    intro fs q hq hz
    have hq2 := compress_preserves_gz fs job.1 job.2 q hq hz
    simp only [compressSeq]
    cases hres : (compress fs job.1 job.2).res with
    | ok gz =>
      dsimp only
      intro hmem
      rw [List.mem_cons] at hmem
      rcases hmem with hmem | hmem
      · obtain ⟨hfrz, hpres, hgzl⟩ := compress_ok_spec fs job.1 job.2 gz hres
        rw [hmem] at hq
        rw [hq] at hfrz
        cases hfrz
      · exact ih (compress fs job.1 job.2).fs q hq2 hz hmem
    | invalidPath =>
      dsimp only
      exact ih (compress fs job.1 job.2).fs q hq2 hz
    | openErr =>
      dsimp only
      exact ih (compress fs job.1 job.2).fs q hq2 hz
    | ioErr =>
      dsimp only
      exact ih (compress fs job.1 job.2).fs q hq2 hz
    | stuck =>
      dsimp only
      exact ih (compress fs job.1 job.2).fs q hq2 hz

theorem compressSeq_nodup (jobs : List (List Char × Option Nat)) :
    ∀ fs : FS, ((compressSeq fs jobs).2).Nodup := by
  induction jobs with
  | nil =>
    intro fs
    simp [compressSeq]
  | cons job rest ih =>
    intro fs
    simp only [compressSeq]
    cases hres : (compress fs job.1 job.2).res with
    | ok gz =>
      dsimp only
      rw [List.nodup_cons]
      obtain ⟨hfr, hpres, hgzl⟩ := compress_ok_spec fs job.1 job.2 gz hres
      exact ⟨compressSeq_avoid rest _ gz hpres hgzl, ih _⟩
    | invalidPath =>
      dsimp only
      exact ih _
    | openErr =>
      dsimp only
      exact ih _
    | ioErr =>
      dsimp only
      exact ih _
    | stuck =>
      dsimp only
      exact ih _

/-! Facts about the finalize-rename path construction. -/

theorem hexRepr_zero : hexRepr 0 = ['0'] := by
  rw [hexRepr]
  rw [dif_pos (by norm_num)]
  rfl

theorem isHexDigitCI_zero_char : isHexDigitCI '0' = true := by decide

theorem padHex_isHex (t : Nat) : (padZero8 (hexRepr t)).all isHexDigitCI = true := by
  apply List.all_eq_true.mpr
  intro c hc
  rcases padZero8_chars _ c hc with hc0 | hcd
  · rw [hc0]
    exact isHexDigitCI_zero_char
  · exact hexRepr_isHex t c hcd

theorem padHex_length (t : Nat) (ht : t < 4294967296) :
    (padZero8 (hexRepr t)).length = 8 := by
  rw [padZero8_length]
  have h16 : (16 : Nat) ^ (7 + 1) = 4294967296 := by norm_num
  have hle := hexRepr_length_le 7 t (by rw [h16]; exact ht)
  exact Nat.max_eq_left hle

theorem isHexDigitCI_not_slash (c : Char) (h : isHexDigitCI c = true) : ¬ c = '/' := by
  intro hc
  subst hc
  simp [isHexDigitCI] at h

theorem compressMarker_noSlash : ∀ c ∈ compressMarker, ¬ c = '/' := by decide

theorem createCompressPathTag_spec (p : List Char) (t : Nat) (ht : t < 4294967296)
    (hnl : ∀ c ∈ (osPathSplit p).2, ¬ c = '\n') :
    osPathSplit (createCompressPathTag p t) =
      ((osPathSplit p).1, (osPathSplit p).2 ++ compressMarker ++ padZero8 (hexRepr t)) ∧
    splitCompressPath (createCompressPathTag p t) = some (osPathSplit p) := by
  have htag8 : (padZero8 (hexRepr t)).length = 8 := padHex_length t ht
  have htaghex : ∀ c ∈ padZero8 (hexRepr t), isHexDigitCI c = true :=
    List.all_eq_true.mp (padHex_isHex t)
  have htail : ∀ c ∈ (osPathSplit p).2 ++ compressMarker ++ padZero8 (hexRepr t), ¬ c = '/' := by
    intro c hc
    rw [List.mem_append, List.mem_append] at hc
    rcases hc with (hc | hc) | hc
    · exact osPathSplit_tail_ne_slash p c hc
    · exact compressMarker_noSlash c hc
    · exact isHexDigitCI_not_slash c (htaghex c hc)
  have htne : (osPathSplit p).2 ++ compressMarker ++ padZero8 (hexRepr t) ≠ [] := by
    intro hx
    have hl := congrArg List.length hx
    simp only [List.length_append, List.length_nil] at hl
    have : compressMarker.length = 10 := rfl
    omega
  have hsplit := osPathSplit_join (osPathSplit p).1
    ((osPathSplit p).2 ++ compressMarker ++ padZero8 (hexRepr t))
    (osPathSplit_head_shape p) htail htne
  have heq : createCompressPathTag p t =
      osPathJoin (osPathSplit p).1
        ((osPathSplit p).2 ++ compressMarker ++ padZero8 (hexRepr t)) := rfl
  refine ⟨by rw [heq]; exact hsplit, ?_⟩
  rw [splitCompressPath, heq, hsplit]
  have hmatch := matchCompressFilename_wellformed (osPathSplit p).2 (padZero8 (hexRepr t))
    hnl htag8 htaghex
  dsimp only
  rw [hmatch]
  rfl

theorem createCompressPath_mem (fs : FS) (p : List Char) :
    ∀ tags np, createCompressPath fs p tags = some np →
      ∃ t, t ∈ tags ∧ np = createCompressPathTag p t := by
  intro tags
  induction tags with
  | nil =>
    intro np h
    cases h
  | cons t ts ih =>
    intro np h
    simp only [createCompressPath] at h
    by_cases hf : isfile fs (createCompressPathTag p t) = true
    · rw [if_pos hf] at h
      obtain ⟨t2, ht2, he⟩ := ih np h
      exact ⟨t2, by simp [ht2], he⟩
    · rw [if_neg hf] at h
      injection h with h
      exact ⟨t, by simp, h.symm⟩

/-! Facts about the startup scan. -/

theorem startupScan_foldl_mem (l : List (List Char)) :
    ∀ (acc : List (Nat × List Char)) (e : Nat × List Char),
      e ∈ l.foldl (fun q p => if isCompressPath p then q ++ [(0, p)] else q) acc ↔
        e ∈ acc ∨ (e.1 = 0 ∧ e.2 ∈ l ∧ isCompressPath e.2 = true) := by
  induction l with
  | nil =>
    intro acc e
    simp
  | cons p rest ih =>
    intro acc e
    rw [List.foldl_cons]
    by_cases hp : isCompressPath p = true
    · rw [if_pos hp, ih]
      rw [List.mem_append, List.mem_singleton, List.mem_cons]
      constructor
      · rintro ((h | h) | h)
        · exact Or.inl h
        · subst h
          exact Or.inr ⟨rfl, Or.inl rfl, hp⟩
        · exact Or.inr ⟨h.1, Or.inr h.2.1, h.2.2⟩
      · rintro (h | ⟨h1, h2 | h2, h3⟩)
        · exact Or.inl (Or.inl h)
        · left
          right
          obtain ⟨ea, eb⟩ := e
          simp only at h1 h2
          rw [h1, h2]
        · exact Or.inr ⟨h1, h2, h3⟩
    · rw [if_neg hp, ih]
      rw [List.mem_cons]
      constructor
      · rintro (h | h)
        · exact Or.inl h
        · exact Or.inr ⟨h.1, Or.inr h.2.1, h.2.2⟩
      · rintro (h | ⟨h1, h2 | h2, h3⟩)
        · exact Or.inl h
        · exfalso
          rw [h2] at h3
          rw [h3] at hp
          exact hp rfl
        · exact Or.inr ⟨h1, h2, h3⟩

/-! Facts about the path codec. -/

theorem splitSlash_none (s : List Char) (h : (splitSlash s).2 = none) :
    (splitSlash s).1 = s := by
  induction s with
  | nil => rfl
  | cons c cs ih =>
    simp only [splitSlash] at h ⊢
    by_cases hc : c = '/'
    · rw [if_pos hc] at h
      cases h
    · rw [if_neg hc] at h ⊢
      dsimp only at h ⊢
      rw [ih h]

theorem parseJID_eq_bare_iff (s : List Char) :
    parseJID s = jidBare (parseJID s) ↔ (splitSlash s).2 = none := by
  simp [parseJID, jidBare, JIDm.mk.injEq]

theorem pctUpperHexDigit_toNat (d : Nat) (hd : d < 16) :
    (pctUpperHexDigit d).toNat = if d < 10 then 48 + d else 55 + d := by
  rw [pctUpperHexDigit]
  by_cases h : d < 10
  · rw [if_pos h, if_pos h]
    exact charOfNat_toNat (48 + d) (by omega)
  · rw [if_neg h, if_neg h]
    exact charOfNat_toNat (55 + d) (by omega)

theorem quoteByte_no_slash (b : Nat) (hb : b < 256) : ¬ '/' ∈ quoteByte b := by
  rw [quoteByte]
  by_cases hs : quoteSafeByte b = true
  · rw [if_pos hs]
    intro hm
    rw [List.mem_singleton] at hm
    have h47 : b = 47 := by
      have := charOfNat_toNat b (by omega)
      rw [← hm] at this
      have h2 : ('/' : Char).toNat = 47 := rfl
      omega
    subst h47
    simp [quoteSafeByte] at hs
  · rw [if_neg hs]
    intro hm
    simp only [List.mem_cons, List.not_mem_nil, or_false] at hm
    have hd1 : b / 16 % 16 < 16 := Nat.mod_lt _ (by norm_num)
    have hd2 : b % 16 < 16 := Nat.mod_lt _ (by norm_num)
    rcases hm with hm | hm | hm
    · cases hm
    · have := pctUpperHexDigit_toNat _ hd1
      rw [← hm] at this
      have h2 : ('/' : Char).toNat = 47 := rfl
      rw [h2] at this
      by_cases hx : b / 16 % 16 < 10
      · rw [if_pos hx] at this
        omega
      · rw [if_neg hx] at this
        omega
    · have := pctUpperHexDigit_toNat _ hd2
      rw [← hm] at this
      have h2 : ('/' : Char).toNat = 47 := rfl
      rw [h2] at this
      by_cases hx : b % 16 < 10
      · rw [if_pos hx] at this
        omega
      · rw [if_neg hx] at this
        omega

theorem char_toNat_lt (c : Char) : c.toNat < 1114112 := by
  have h := c.valid
  rcases h with h | h
  · exact Nat.lt_trans h (by norm_num)
  · exact h.2

theorem utf8EncodeCharNat_lt (c : Char) : ∀ b ∈ utf8EncodeCharNat c, b < 256 := by
  have hc : c.toNat < 1114112 := char_toNat_lt c
  intro b hb
  rw [utf8EncodeCharNat] at hb
  by_cases h1 : c.toNat < 128
  · rw [if_pos h1] at hb
    rw [List.mem_singleton] at hb
    omega
  · rw [if_neg h1] at hb
    by_cases h2 : c.toNat < 2048
    · rw [if_pos h2] at hb
      have hq : c.toNat / 64 < 32 := by
        rw [Nat.div_lt_iff_lt_mul (by norm_num)]
        omega
      have hm : c.toNat % 64 < 64 := Nat.mod_lt _ (by norm_num)
      simp only [List.mem_cons, List.not_mem_nil, or_false] at hb
      rcases hb with hb | hb <;> omega
    · rw [if_neg h2] at hb
      by_cases h3 : c.toNat < 65536
      · rw [if_pos h3] at hb
        have hq : c.toNat / 4096 < 16 := by
          rw [Nat.div_lt_iff_lt_mul (by norm_num)]
          omega
        have hm1 : c.toNat / 64 % 64 < 64 := Nat.mod_lt _ (by norm_num)
        have hm2 : c.toNat % 64 < 64 := Nat.mod_lt _ (by norm_num)
        simp only [List.mem_cons, List.not_mem_nil, or_false] at hb
        rcases hb with hb | hb | hb <;> omega
      · rw [if_neg h3] at hb
        have hq : c.toNat / 262144 < 5 := by
          rw [Nat.div_lt_iff_lt_mul (by norm_num)]
          omega
        have hm1 : c.toNat / 4096 % 64 < 64 := Nat.mod_lt _ (by norm_num)
        have hm2 : c.toNat / 64 % 64 < 64 := Nat.mod_lt _ (by norm_num)
        have hm3 : c.toNat % 64 < 64 := Nat.mod_lt _ (by norm_num)
        simp only [List.mem_cons, List.not_mem_nil, or_false] at hb
        rcases hb with hb | hb | hb | hb <;> omega

theorem decRepr_length_le (k : Nat) : ∀ n : Nat, n < 10 ^ (k + 1) →
    (decRepr n).length ≤ k + 1 := by
  induction k with
  | zero =>
    intro n hn
    rw [decRepr]
    rw [pow_one] at hn
    rw [dif_pos hn]
    simp
  | succ k ih =>
    intro n hn
    rw [decRepr]
    by_cases h : n < 10
    · rw [dif_pos h]
      simp
    · rw [dif_neg h]
      simp only [List.length_append, List.length_singleton]
      have hdiv : n / 10 < 10 ^ (k + 1) := by
        rw [Nat.div_lt_iff_lt_mul (by omega)]
        calc n < 10 ^ (k + 1 + 1) := hn
        _ = 10 ^ (k + 1) * 10 := by ring
      have := ih (n / 10) hdiv
      omega

theorem lookupFS_none_of_isfile_false (fs : FS) (q : List Char)
    (h : isfile fs q = false) : lookupFS fs q = none := by
  cases hx : lookupFS fs q with
  | none => rfl
  | some c =>
    rw [isfile, hx] at h
    cases h

/-! The claims. -/

/-- C1: the claim states that the rotate stream treats the very first
observed UTC day as a baseline and emits nothing for it.  The code
(archivebot.py lines 163-173) initializes `last = None`, so `now != last`
already holds at the very first poll and a rotation signal is emitted
immediately; after that it emits exactly once per observed day-value change.
This theorem evaluates the embedded `rotate` loop at the failing input: a
first poll observing day 15 emits (`[true]`), and a run observing days
15, 15, 16 emits at the first poll and at the change, not only at the
change. -/
theorem rotate_emits_on_first_poll :
    rotateSignals [15] = [true] ∧ rotateSignals [15, 15, 16] = [true, false, true] :=
  ⟨rfl, rfl⟩

/-- C9: a rotation signal received while the collector holds no open archive
file (`archive = None`) is a complete no-op: the returned state is exactly
the input state (same filesystem, still idle, same queue) and the action
trace is empty, so nothing is created, renamed, deleted, written, or
enqueued, and no error is raised. -/
theorem collector_rotation_while_idle (fs : FS) (q : List (Nat × List Char))
    (tags : List Nat) (today : List Char) :
    collectStep ⟨fs, none, q⟩ tags today CEvent.rotateEv = some (⟨fs, none, q⟩, []) := rfl

/-- C10: `compress` opens the input file before validating its name, so for
a path that names no existing file it fails the way `open` does (an
`IOError`/`OSError`), not with the `InvalidPath` `ValueError`; and one
iteration of the worker loop, whose `except ValueError` handler catches only
the invalid-path case, lets this failure propagate instead of logging and
skipping it. -/
theorem compress_missing_file_uncaught (fs : FS) (p : List Char) (fail : Option Nat)
    (h : lookupFS fs p = none) :
    compress fs p fail = ⟨CompressResult.openErr, fs, []⟩ ∧
    workerStep fs p fail = (WorkerOutcome.raisedError, fs) := by
  refine ⟨compress_openErr fs p fail h, ?_⟩
  simp only [workerStep]
  rw [compress_openErr fs p fail h]

theorem compress_missing_file_uncaught_witness :
    lookupFS [] (("2026/10/12.json").toList) = none ∧
    compress [] (("2026/10/12.json").toList) none = ⟨CompressResult.openErr, [], []⟩ ∧
    workerStep [] (("2026/10/12.json").toList) none = (WorkerOutcome.raisedError, []) := by
  refine ⟨rfl, ?_, ?_⟩
  · exact (compress_missing_file_uncaught [] (("2026/10/12.json").toList) none rfl).1
  · exact (compress_missing_file_uncaught [] (("2026/10/12.json").toList) none rfl).2

/-- C5: the startup recovery scan of `_archive` enqueues, always with delay
0, exactly those files of the source's archive subtree whose names match the
rotated-file pattern (`_is_compress_path`): an entry is in the seeded queue
precisely when its delay is 0, its path lies under the source directory, and
the pattern matches — so active `.json` files and compressed `.gz` files are
never enqueued.  (The seeding happens in `_archive` before the collector and
worker pipelines are even constructed, so it precedes any draining.) -/
theorem startup_scan_exact (fs : FS) (dir : List Char) (e : Nat × List Char) :
    e ∈ startupScan fs dir ↔
      e.1 = 0 ∧ e.2 ∈ walkFiles fs dir ∧ isCompressPath e.2 = true := by
  rw [startupScan, startupScan_foldl_mem]
  simp

/-- C2: for a valid, existing finalized input, `compress` removes the
original only after the compressed copy is completely written and closed —
the success trace is exactly open, create, full write, close, remove, in
that order, and the final filesystem holds the complete compressed content
with the original gone; if the compressed-stream write fails partway (after
`k` bytes), the original file keeps its exact content, the partially written
compressed file is left in place, and no remove action occurs. -/
theorem compress_remove_only_after_complete_write (fs : FS) (p : List Char)
    (c : List Nat) (d f : List Char)
    (hl : lookupFS fs p = some c) (hsp : splitCompressPath p = some (d, f)) :
    ∃ gzp, lookupFS fs gzp = none ∧
      ((compress fs p none).res = CompressResult.ok gzp ∧
        lookupFS (compress fs p none).fs gzp = some (gzipBytes c) ∧
        lookupFS (compress fs p none).fs p = none ∧
        (compress fs p none).tr =
          [FileAct.openR p, FileAct.create gzp, FileAct.writeB gzp (gzipBytes c),
            FileAct.closeW gzp, FileAct.removeF p]) ∧
      (∀ k, (compress fs p (some k)).res = CompressResult.ioErr ∧
        lookupFS (compress fs p (some k)).fs p = some c ∧
        lookupFS (compress fs p (some k)).fs gzp = some ((gzipBytes c).take k) ∧
        ¬ FileAct.removeF p ∈ (compress fs p (some k)).tr) := by
  obtain ⟨gzp, hfresh, hz, hok, hio⟩ := compress_valid fs p c d f hl hsp
  have hgzp : ¬ gzp = p := gz_ne_pattern_path gzp p hz (splitCompressPath_last p d f hsp)
  have hpgz : ¬ p = gzp := fun h => hgzp h.symm
  have hmemgz : isfile ((gzp, []) :: fs) gzp = true := by
    simp [isfile, lookupFS]
  refine ⟨gzp, lookupFS_none_of_isfile_false fs gzp hfresh, ⟨?_, ?_, ?_, ?_⟩, ?_⟩
  · rw [hok]
  · rw [hok]
    dsimp only
    rw [lookupFS_remove_ne _ p gzp hgzp]
    exact lookupFS_update_self _ gzp (gzipBytes c) hmemgz
  · rw [hok]
    dsimp only
    exact lookupFS_remove_self _ p
  · rw [hok]
  · intro k
    refine ⟨?_, ?_, ?_, ?_⟩
    · rw [hio k]
    · rw [hio k]
      dsimp only
      rw [lookupFS_update_ne _ gzp _ p hpgz]
      rw [lookupFS_cons_ne (gzp, []) fs p hgzp]
      exact hl
    · rw [hio k]
      dsimp only
      exact lookupFS_update_self _ gzp _ hmemgz
    · rw [hio k]
      dsimp only
      simp

theorem compress_remove_only_after_complete_write_witness :
    lookupFS [(("05.json.compress-0123abcd").toList, [1, 2, 3])]
      (("05.json.compress-0123abcd").toList) = some [1, 2, 3] ∧
    splitCompressPath (("05.json.compress-0123abcd").toList) =
      some ([], ("05.json").toList) ∧
    ∃ gzp, lookupFS [(("05.json.compress-0123abcd").toList, [1, 2, 3])] gzp = none ∧
      ((compress [(("05.json.compress-0123abcd").toList, [1, 2, 3])]
          (("05.json.compress-0123abcd").toList) none).res = CompressResult.ok gzp ∧
        lookupFS (compress [(("05.json.compress-0123abcd").toList, [1, 2, 3])]
            (("05.json.compress-0123abcd").toList) none).fs gzp =
          some (gzipBytes [1, 2, 3]) ∧
        lookupFS (compress [(("05.json.compress-0123abcd").toList, [1, 2, 3])]
            (("05.json.compress-0123abcd").toList) none).fs
          (("05.json.compress-0123abcd").toList) = none ∧
        (compress [(("05.json.compress-0123abcd").toList, [1, 2, 3])]
            (("05.json.compress-0123abcd").toList) none).tr =
          [FileAct.openR (("05.json.compress-0123abcd").toList), FileAct.create gzp,
            FileAct.writeB gzp (gzipBytes [1, 2, 3]), FileAct.closeW gzp,
            FileAct.removeF (("05.json.compress-0123abcd").toList)]) ∧
      (∀ k, (compress [(("05.json.compress-0123abcd").toList, [1, 2, 3])]
          (("05.json.compress-0123abcd").toList) (some k)).res = CompressResult.ioErr ∧
        lookupFS (compress [(("05.json.compress-0123abcd").toList, [1, 2, 3])]
            (("05.json.compress-0123abcd").toList) (some k)).fs
          (("05.json.compress-0123abcd").toList) = some [1, 2, 3] ∧
        lookupFS (compress [(("05.json.compress-0123abcd").toList, [1, 2, 3])]
            (("05.json.compress-0123abcd").toList) (some k)).fs gzp =
          some ((gzipBytes [1, 2, 3]).take k) ∧
        ¬ FileAct.removeF (("05.json.compress-0123abcd").toList) ∈
          (compress [(("05.json.compress-0123abcd").toList, [1, 2, 3])]
            (("05.json.compress-0123abcd").toList) (some k)).tr) := by
  refine ⟨rfl, rfl, ?_⟩
  exact compress_remove_only_after_complete_write
    [(("05.json.compress-0123abcd").toList, [1, 2, 3])]
    (("05.json.compress-0123abcd").toList) [1, 2, 3] [] (("05.json").toList) rfl rfl

/-- C3 counterexample: the existing file `05.json.COMPRESS-0123abcd` does
not match the claimed pattern `<name>.compress-<8 hex digits>` — its marker
is uppercase — yet `compress` raises no `InvalidPath` error for it: the
source compiles the pattern with `re.IGNORECASE`, so the call succeeds and
the original file is deleted rather than left untouched, refuting the claim
as stated at this input. -/
theorem compress_invalid_name_counterexample :
    (compress [(("05.json.COMPRESS-0123abcd").toList, [1, 2, 3])]
        (("05.json.COMPRESS-0123abcd").toList) none).res ≠
      CompressResult.invalidPath ∧
    lookupFS (compress [(("05.json.COMPRESS-0123abcd").toList, [1, 2, 3])]
        (("05.json.COMPRESS-0123abcd").toList) none).fs
      (("05.json.COMPRESS-0123abcd").toList) = none := by
  constructor
  · decide
  · decide

/-- C3 (amended): for every existing input path whose filename does not
match the rotated-file pattern as the code's regex matches it — that is,
`<name>.compress-<8 hex digits>` compared case-insensitively and with an
optional single trailing newline — `compress` raises the `InvalidPath`
`ValueError` after opening the file, and the filesystem is left completely
unchanged: the file keeps its path and content, nothing is renamed or
deleted, and no compressed output is committed. -/
theorem compress_invalid_name_rejected (fs : FS) (p : List Char) (c : List Nat)
    (fail : Option Nat) (hl : lookupFS fs p = some c)
    (hm : matchCompressFilename (osPathSplit p).2 = none) :
    compress fs p fail = ⟨CompressResult.invalidPath, fs, [FileAct.openR p]⟩ :=
  compress_invalid fs p fail c hl hm

theorem compress_invalid_name_rejected_witness :
    lookupFS [(("05.json").toList, [1, 2])] (("05.json").toList) = some [1, 2] ∧
    matchCompressFilename (osPathSplit (("05.json").toList)).2 = none ∧
    compress [(("05.json").toList, [1, 2])] (("05.json").toList) none =
      ⟨CompressResult.invalidPath, [(("05.json").toList, [1, 2])],
        [FileAct.openR (("05.json").toList)]⟩ :=
  ⟨rfl, rfl, compress_invalid_name_rejected [(("05.json").toList, [1, 2])]
    (("05.json").toList) [1, 2] none rfl rfl⟩

/-- C4: the exclusive-create naming of compressed outputs: the committed
path is the first candidate in the order canonical name, then incrementing
zero-padded numeric suffixes, that did not exist before the call (every
earlier candidate collides with an existing file), the committed path is
always fresh, the filesystem afterwards is the old one with exactly the
fresh (empty) file added — so no existing compressed file is ever
overwritten (lookups at every other path are unchanged); the numeric suffix
has exactly 8 digits for any positive count below 10^8; and every sequence
of compressions, in particular repeated compressions of same-named inputs,
yields pairwise distinct output paths. -/
theorem unique_naming_no_overwrite :
    (∀ (fs : FS) (dir stem ext p : List Char) (fs2 : FS),
      uniqueWritableFile fs dir stem ext = some (p, fs2) →
      (∃ k, p = cand dir stem ext k ∧
        ∀ j, j < k → isfile fs (cand dir stem ext j) = true) ∧
      isfile fs p = false ∧ fs2 = (p, []) :: fs ∧
      (∀ q, ¬ q = p → lookupFS fs2 q = lookupFS fs q)) ∧
    (∀ m : Nat, m < 100000000 → (padZero8 (decRepr m)).length = 8) ∧
    (∀ (fs : FS) (jobs : List (List Char × Option Nat)),
      ((compressSeq fs jobs).2).Nodup) := by
  refine ⟨?_, ?_, ?_⟩
  · intro fs dir stem ext p fs2 h
    obtain ⟨hk, hfresh, hfs2⟩ := uniqueWritableFile_spec fs dir stem ext p fs2 h
    refine ⟨hk, hfresh, hfs2, ?_⟩
    intro q hq
    rw [hfs2]
    exact lookupFS_cons_ne (p, []) fs q (fun hx => hq hx.symm)
  · intro m hm
    rw [padZero8_length]
    have h10 : (10 : Nat) ^ (7 + 1) = 100000000 := by norm_num
    have hle := decRepr_length_le 7 m (by rw [h10]; exact hm)
    exact Nat.max_eq_left hle
  · intro fs jobs
    exact compressSeq_nodup jobs fs

theorem unique_naming_no_overwrite_witness :
    uniqueWritableFile [] (("d").toList) (("05").toList) ((".json.gz").toList) =
      some ((("d/05.json.gz").toList), [((("d/05.json.gz").toList), [])]) ∧
    ((∃ k, ("d/05.json.gz").toList = cand (("d").toList) (("05").toList)
        ((".json.gz").toList) k ∧
      ∀ j, j < k → isfile [] (cand (("d").toList) (("05").toList)
        ((".json.gz").toList) j) = true) ∧
      isfile [] (("d/05.json.gz").toList) = false ∧
      [((("d/05.json.gz").toList), ([] : List Nat))] =
        ((("d/05.json.gz").toList), []) :: [] ∧
      (∀ q, ¬ q = ("d/05.json.gz").toList →
        lookupFS [((("d/05.json.gz").toList), [])] q = lookupFS [] q)) ∧
    (padZero8 (decRepr 5)).length = 8 := by
  refine ⟨rfl, ?_, ?_⟩
  · exact unique_naming_no_overwrite.1 [] (("d").toList) (("05").toList)
      ((".json.gz").toList) (("d/05.json.gz").toList) [((("d/05.json.gz").toList), [])] rfl
  · exact unique_naming_no_overwrite.2.1 5 (by norm_num)

/-- C6: on a rotation signal while a file is open, the collector performs
exactly, in this order: flush the file, close it, rename it to its
tag-suffixed finalized path, and enqueue that path with delay 0; the
resulting state is idle (`archive = None`) with the finalized path appended
to the compression queue.  The rename action appears in the trace strictly
after the close action, so the rename never occurs before the file handle is
closed. -/
theorem collector_rotation_while_writing (fs : FS) (q : List (Nat × List Char))
    (tags : List Nat) (today ap np : List Char)
    (hnp : createCompressPath fs ap tags = some np) :
    collectStep ⟨fs, some ap, q⟩ tags today CEvent.rotateEv =
      some (⟨renameFS fs ap np, none, q ++ [(0, np)]⟩,
        [CAct.flushA ap, CAct.closeA ap, CAct.renameA ap np, CAct.enqueueA 0 np]) := by
  simp only [collectStep]
  rw [hnp]

theorem collector_rotation_while_writing_witness :
    createCompressPath [(("a/05.json").toList, [7])] (("a/05.json").toList) [0] =
      some (("a/05.json.compress-00000000").toList) ∧
    collectStep ⟨[(("a/05.json").toList, [7])], some (("a/05.json").toList), []⟩ [0]
        (("x").toList) CEvent.rotateEv =
      some (⟨renameFS [(("a/05.json").toList, [7])] (("a/05.json").toList)
          (("a/05.json.compress-00000000").toList), none,
          [(0, ("a/05.json.compress-00000000").toList)]⟩,
        [CAct.flushA (("a/05.json").toList), CAct.closeA (("a/05.json").toList),
          CAct.renameA (("a/05.json").toList) (("a/05.json.compress-00000000").toList),
          CAct.enqueueA 0 (("a/05.json.compress-00000000").toList)]) := by
  have hnp : createCompressPath [(("a/05.json").toList, [7])] (("a/05.json").toList) [0] =
      some (("a/05.json.compress-00000000").toList) := by
    simp only [createCompressPath, createCompressPathTag, hexRepr_zero]
    decide
  exact ⟨hnp, collector_rotation_while_writing [(("a/05.json").toList, [7])] [] [0]
    (("x").toList) (("a/05.json").toList) (("a/05.json.compress-00000000").toList) hnp⟩

/-- C7 counterexample: for the path whose filename `a\nb.json` contains a
newline, with drawn tag 0, `_create_compress_path` produces
`a\nb.json.compress-00000000`, but `_split_compress_path` raises
`ValueError` on that result (the regex metacharacter `.` does not match a
newline), so the claimed round-trip back to `(directory, filename)` fails
for this path. -/
theorem create_split_roundtrip_counterexample :
    splitCompressPath (createCompressPathTag (("a\nb.json").toList) 0) ≠
      some (osPathSplit (("a\nb.json").toList)) := by
  have he : createCompressPathTag (("a\nb.json").toList) 0 =
      ("a\nb.json.compress-00000000").toList := by
    simp only [createCompressPathTag, hexRepr_zero]
    decide
  rw [he]
  decide

/-- C7 (amended): for every path whose filename contains no newline
character, `_create_compress_path` (for any drawn 32-bit tags) returns a
path in the same directory whose filename is the original filename followed
by `".compress-"` and exactly eight case-insensitive hexadecimal digits,
and `_split_compress_path` applied to that result returns exactly the
`(directory, filename)` pair of the original path. -/
theorem create_split_roundtrip (fs : FS) (p np : List Char) (tags : List Nat)
    (hcr : createCompressPath fs p tags = some np)
    (htags : ∀ t ∈ tags, t < 4294967296)
    (hnl : ∀ c ∈ (osPathSplit p).2, ¬ c = '\n') :
    (osPathSplit np).1 = (osPathSplit p).1 ∧
    (∃ tag : List Char, (osPathSplit np).2 = (osPathSplit p).2 ++ compressMarker ++ tag ∧
      tag.length = 8 ∧ tag.all isHexDigitCI = true) ∧
    splitCompressPath np = some (osPathSplit p) := by
  obtain ⟨t, htm, hnp⟩ := createCompressPath_mem fs p tags np hcr
  subst hnp
  obtain ⟨h1, h2⟩ := createCompressPathTag_spec p t (htags t htm) hnl
  exact ⟨by rw [h1], ⟨padZero8 (hexRepr t), by rw [h1], padHex_length t (htags t htm),
    padHex_isHex t⟩, h2⟩

theorem create_split_roundtrip_witness :
    createCompressPath [] (("path/to/test.json").toList) [0] =
      some (("path/to/test.json.compress-00000000").toList) ∧
    ((osPathSplit (("path/to/test.json.compress-00000000").toList)).1 =
        (osPathSplit (("path/to/test.json").toList)).1 ∧
      (∃ tag : List Char,
        (osPathSplit (("path/to/test.json.compress-00000000").toList)).2 =
          (osPathSplit (("path/to/test.json").toList)).2 ++ compressMarker ++ tag ∧
        tag.length = 8 ∧ tag.all isHexDigitCI = true) ∧
      splitCompressPath (("path/to/test.json.compress-00000000").toList) =
        some (osPathSplit (("path/to/test.json").toList))) := by
  have hcr : createCompressPath [] (("path/to/test.json").toList) [0] =
      some (("path/to/test.json.compress-00000000").toList) := by
    simp only [createCompressPath, createCompressPathTag, hexRepr_zero]
    decide
  refine ⟨hcr, ?_⟩
  have h := create_split_roundtrip [] (("path/to/test.json").toList)
    (("path/to/test.json.compress-00000000").toList) [0] hcr
    (by intro t ht; simp at ht; omega) (by decide)
  exact h

/-- C8: `_encode_room_jid` raises an error (modelled as `none`) for every
identifier that differs from its own canonical bare-JID form (one carrying a
resource part), and for every canonical identifier it returns the
percent-escaped UTF-8 encoding of the identifier in which `@` (byte 64) and
the space (byte 32) are left unescaped while every byte outside the safe set
— including `/` — is rendered as `%` plus two uppercase hex digits; in
particular no `/` ever appears in the result, which is therefore usable as a
single path segment. -/
theorem encode_room_jid_spec :
    (∀ s : List Char, ¬ parseJID s = jidBare (parseJID s) → encodeRoomJid s = none) ∧
    (∀ s : List Char, parseJID s = jidBare (parseJID s) →
      encodeRoomJid s = some (quoteBytes (utf8Encode s))) ∧
    quoteByte 64 = ['@'] ∧ quoteByte 32 = [' '] ∧
    (∀ b : Nat, quoteSafeByte b = false →
      quoteByte b = ['%', pctUpperHexDigit (b / 16 % 16), pctUpperHexDigit (b % 16)]) ∧
    quoteSafeByte (('/').toNat) = false ∧
    (∀ s r, encodeRoomJid s = some r → ¬ '/' ∈ r) := by
  refine ⟨?_, ?_, by decide, by decide, ?_, by decide, ?_⟩
  · intro s hne
    simp only [encodeRoomJid]
    rw [if_neg hne]
  · intro s he
    simp only [encodeRoomJid]
    rw [if_pos he]
    have hbare : (splitSlash s).1 = s :=
      splitSlash_none s ((parseJID_eq_bare_iff s).mp he)
    show some (quoteBytes (utf8Encode (splitSlash s).1)) = _
    rw [hbare]
  · intro b hb
    rw [quoteByte, if_neg (by simp [hb])]
  · intro s r he hm
    simp only [encodeRoomJid] at he
    by_cases hc : parseJID s = jidBare (parseJID s)
    · rw [if_pos hc] at he
      injection he with he
      rw [← he] at hm
      rw [quoteBytes] at hm
      rw [List.mem_join] at hm
      obtain ⟨l, hl, hml⟩ := hm
      rw [List.mem_map] at hl
      obtain ⟨b, hb, hbl⟩ := hl
      have hb256 : b < 256 := by
        rw [utf8Encode, List.mem_join] at hb
        obtain ⟨bl, hbl2, hbm⟩ := hb
        rw [List.mem_map] at hbl2
        obtain ⟨c0, hc0, hc0e⟩ := hbl2
        rw [← hc0e] at hbm
        exact utf8EncodeCharNat_lt c0 b hbm
      rw [← hbl] at hml
      exact quoteByte_no_slash b hb256 hml
    · rw [if_neg hc] at he
      cases he

theorem encode_room_jid_spec_witness :
    encodeRoomJid (("room@example.com/nick").toList) = none ∧
    encodeRoomJid (("room@example.com").toList) =
      some (quoteBytes (utf8Encode (("room@example.com").toList))) ∧
    quoteByte (('#').toNat) = ['%', pctUpperHexDigit ((('#').toNat) / 16 % 16),
      pctUpperHexDigit ((('#').toNat) % 16)] := by
  refine ⟨?_, ?_, ?_⟩
  · exact encode_room_jid_spec.1 (("room@example.com/nick").toList) (by decide)
  · exact encode_room_jid_spec.2.1 (("room@example.com").toList) (by decide)
  · exact encode_room_jid_spec.2.2.2.2.1 (('#').toNat) (by decide)
